import Mathlib

/-!
Verification of the abslint128 128-bit integer library.

The C++ sources (include/abslint128.h, src/int128.cpp) are shallowly
embedded: each 64-bit limb is a `Nat` that the well-formedness predicate
bounds by `2 ^ 64`, and every C `uint64_t` operation that can wrap carries
an explicit `% 2 ^ 64`.  Bitwise `|` is kept as `Nat.lor`; `>>` and `&`
with a low mask are rendered as `/` and `%` by a power of two, which is
exact for unsigned machine integers.
-/

set_option maxRecDepth 2000

namespace absl

/-- Bit length of a natural number, fuel-driven so that it reduces by
kernel evaluation: `bitlenAux fuel n` peels one binary digit per step. -/
def bitlenAux : Nat → Nat → Nat
  | 0, _ => 0
  | fuel + 1, n => if n = 0 then 0 else bitlenAux fuel (n / 2) + 1

/-- Number of binary digits of `n` (`0` for `n = 0`): the unique `b` with
`2 ^ (b - 1) ≤ n < 2 ^ b` when `n > 0`. -/
def bitlen (n : Nat) : Nat := bitlenAux n n

/-!
## The data model

`uint128_t` (include/abslint128.h): two 64-bit limbs `lo_`, `hi_`;
modelled as two `Nat` fields with well-formedness `Wf` bounding both by
`2 ^ 64`.  The logical value is `hi * 2 ^ 64 + lo`.
-/
structure uint128_t where
  lo : Nat
  hi : Nat
deriving DecidableEq

/-- Constructor `uint128_t(uint64_t high, uint64_t low)` via the factory
`MakeUint128(high, low)`. -/
def MakeUint128 (high low : Nat) : uint128_t := ⟨low, high⟩

/-- Accessor returning the low limb `lo_`. -/
def Uint128Low64 (v : uint128_t) : Nat := v.lo

/-- Accessor returning the high limb `hi_`. -/
def Uint128High64 (v : uint128_t) : Nat := v.hi

/-- Both limbs hold 64-bit values. -/
def uint128_t.Wf (v : uint128_t) : Prop := v.lo < 2 ^ 64 ∧ v.hi < 2 ^ 64

instance (v : uint128_t) : Decidable v.Wf := by
  unfold uint128_t.Wf
  infer_instance

/-- Logical value `hi * 2^64 + lo` of a `uint128_t`. -/
def uint128_t.val (v : uint128_t) : Nat := v.hi * 2 ^ 64 + v.lo

/-- Constructor `uint128_t(unsigned long long v)`: `lo_ = v`, `hi_ = 0`
(zero extension); precondition `v < 2 ^ 64`. -/
def uint128_t.ofNat64 (v : Nat) : uint128_t := ⟨v, 0⟩

/-- Constructor `uint128_t(long long v)`: `lo_ = static_cast<uint64_t>(v)`
(the 64-bit two's-complement pattern of `v`), `hi_` all-ones when `v < 0`,
zero otherwise; precondition: `v` fits a signed 64-bit integer. -/
def uint128_t.ofInt64 (v : Int) : uint128_t :=
  ⟨(v % (2 ^ 64 : Int)).toNat, if v < 0 then 2 ^ 64 - 1 else 0⟩

/-- Conversion `operator unsigned long long()`: keeps only the low limb. -/
def uint128_t.toNat64 (v : uint128_t) : Nat := v.lo

/-- Wrapping 64-bit subtraction `a - b` on `uint64_t` patterns (exact for
`a, b < 2 ^ 64`). -/
def sub64 (a b : Nat) : Nat := (a + 2 ^ 64 - b) % 2 ^ 64

/-- C++ `operator+(uint128_t, uint128_t)`: limb-wise add with carry detected
by comparing the result's low limb against the left operand's low limb. -/
def uint128_t.add (lhs rhs : uint128_t) : uint128_t :=
  let result := MakeUint128 ((Uint128High64 lhs + Uint128High64 rhs) % 2 ^ 64)
    ((Uint128Low64 lhs + Uint128Low64 rhs) % 2 ^ 64)
  if Uint128Low64 result < Uint128Low64 lhs then
    MakeUint128 ((Uint128High64 result + 1) % 2 ^ 64) (Uint128Low64 result)
  else result

/-- C++ `operator-(uint128_t, uint128_t)`: limb-wise subtract with borrow
detected by comparing the low limbs of the operands. -/
def uint128_t.sub (lhs rhs : uint128_t) : uint128_t :=
  let result := MakeUint128 (sub64 (Uint128High64 lhs) (Uint128High64 rhs))
    (sub64 (Uint128Low64 lhs) (Uint128Low64 rhs))
  if Uint128Low64 lhs < Uint128Low64 rhs then
    MakeUint128 (sub64 (Uint128High64 result) 1) (Uint128Low64 result)
  else result

/-- C++ `operator<<(uint128_t, int)` (portable path): amounts in `[64, 128)`
are formed purely from the low limb; `x >> (64 - amount)` is division and
`x << amount` multiplies then wraps. -/
def uint128_t.shl (lhs : uint128_t) (amount : Nat) : uint128_t :=
  if amount < 64 then
    if amount ≠ 0 then
      MakeUint128
        ((Uint128High64 lhs * 2 ^ amount) % 2 ^ 64 ||| Uint128Low64 lhs / 2 ^ (64 - amount))
        (Uint128Low64 lhs * 2 ^ amount % 2 ^ 64)
    else lhs
  else MakeUint128 (Uint128Low64 lhs * 2 ^ (amount - 64) % 2 ^ 64) 0

/-- C++ `operator>>(uint128_t, int)` (portable path). -/
def uint128_t.shr (lhs : uint128_t) (amount : Nat) : uint128_t :=
  if amount < 64 then
    if amount ≠ 0 then
      MakeUint128 (Uint128High64 lhs / 2 ^ amount)
        (Uint128Low64 lhs / 2 ^ amount ||| (Uint128High64 lhs * 2 ^ (64 - amount)) % 2 ^ 64)
    else lhs
  else MakeUint128 0 (Uint128High64 lhs / 2 ^ (amount - 64))

/-- C++ `operator*(uint128_t, uint128_t)` (portable path): four 32-bit
partial products; `>> 32` and `& 0xffffffff` written as `/ 2^32`, `% 2^32`. -/
def uint128_t.mul (lhs rhs : uint128_t) : uint128_t :=
  let a32 := Uint128Low64 lhs / 2 ^ 32
  let a00 := Uint128Low64 lhs % 2 ^ 32
  let b32 := Uint128Low64 rhs / 2 ^ 32
  let b00 := Uint128Low64 rhs % 2 ^ 32
  let result := MakeUint128
    ((Uint128High64 lhs * Uint128Low64 rhs + Uint128Low64 lhs * Uint128High64 rhs
      + a32 * b32) % 2 ^ 64)
    ((a00 * b00) % 2 ^ 64)
  let result := result.add ((uint128_t.ofNat64 (a32 * b00 % 2 ^ 64)).shl 32)
  let result := result.add ((uint128_t.ofNat64 (a00 * b32 % 2 ^ 64)).shl 32)
  result

/-- C++ `operator==(uint128_t, uint128_t)`: compares both limbs. -/
def uint128_t.beq (lhs rhs : uint128_t) : Bool :=
  decide (Uint128Low64 lhs = Uint128Low64 rhs) && decide (Uint128High64 lhs = Uint128High64 rhs)

/-- C++ `operator<(uint128_t, uint128_t)` (portable path): `hi` first,
`lo` as tiebreak. -/
def uint128_t.lt (lhs rhs : uint128_t) : Bool :=
  if Uint128High64 lhs = Uint128High64 rhs then decide (Uint128Low64 lhs < Uint128Low64 rhs)
  else decide (Uint128High64 lhs < Uint128High64 rhs)

/-- C++ `operator>`: `rhs < lhs`. -/
def uint128_t.gt (lhs rhs : uint128_t) : Bool := uint128_t.lt rhs lhs

/-- C++ `operator<=`: `!(rhs < lhs)`. -/
def uint128_t.le (lhs rhs : uint128_t) : Bool := !(uint128_t.lt rhs lhs)

/-- C++ `operator>=`: `!(lhs < rhs)`. -/
def uint128_t.ge (lhs rhs : uint128_t) : Bool := !(uint128_t.lt lhs rhs)

/-- C++ unary `operator-(uint128_t)`: `hi = ~hi; lo = ~lo + 1; if (lo == 0) ++hi`,
with `~x` on `uint64_t` written as `2^64 - 1 - x`. -/
def uint128_t.neg (v : uint128_t) : uint128_t :=
  let hi := (2 ^ 64 - 1) - Uint128High64 v
  let lo := (((2 ^ 64 - 1) - Uint128Low64 v) + 1) % 2 ^ 64
  if lo = 0 then MakeUint128 ((hi + 1) % 2 ^ 64) lo else MakeUint128 hi lo

/-- C++ `operator|(uint128_t, uint128_t)`: limb-wise. -/
def uint128_t.lor (lhs rhs : uint128_t) : uint128_t :=
  MakeUint128 (Uint128High64 lhs ||| Uint128High64 rhs) (Uint128Low64 lhs ||| Uint128Low64 rhs)

/-!
## Leading-zero count (src/int128.cpp)
-/
/-- Nibble table of `CountLeadingZeros64Slow`: the string literal holds 15
explicit characters `\4\3\2\2\1\1\1\1\0\0\0\0\0\0\0` plus the implicit
terminating NUL read at index 15. -/
def clzNibble (n : Nat) : Nat :=
  [4, 3, 2, 2, 1, 1, 1, 1, 0, 0, 0, 0, 0, 0, 0, 0].getD n 0

/-- One conditional block `if (n >> k) { zeroes -= k; n >>= k; }` of
`CountLeadingZeros64Slow`, acting on the pair `(zeroes, n)`. -/
def clzStep (k : Nat) (p : Nat × Nat) : Nat × Nat :=
  if p.2 / 2 ^ k ≠ 0 then (p.1 - k, p.2 / 2 ^ k) else p

/-- `CountLeadingZeros64Slow`: `zeroes = 60`, then the four nibble-stepping
blocks for 32, 16, 8 and 4, then the table lookup added to `zeroes`. -/
def CountLeadingZeros64Slow (n : Nat) : Nat :=
  let p := clzStep 4 (clzStep 8 (clzStep 16 (clzStep 32 (60, n))))
  clzNibble p.2 + p.1

/-- `CountLeadingZeros64`, gcc/clang path: `0` is special-cased to `64`
because `__builtin_clzll(0)` is undefined; for nonzero input the builtin
counts leading zeros of the 64-bit pattern, i.e. returns `64 - bitlen n`
(modelled from the builtin's documented semantics). -/
def CountLeadingZeros64 (n : Nat) : Nat :=
  if n = 0 then 64 else 64 - bitlen n

/-- `Fls128`: 0-based index of the most significant set bit; the argument
must not be 0. -/
def Fls128 (n : uint128_t) : Nat :=
  if Uint128High64 n ≠ 0 then 127 - CountLeadingZeros64 (Uint128High64 n)
  else 63 - CountLeadingZeros64 (Uint128Low64 n)

/-!
## The division engine (uint128_t::DivMod, src/int128.cpp)
-/
/-- The shift-subtract loop of `uint128_t::DivMod`, run `shift + 1` times:
double the quotient; if `dividend >= denominator` subtract and set the low
quotient bit; halve the denominator. -/
def uint128_t.divLoop : Nat → uint128_t → uint128_t → uint128_t → uint128_t × uint128_t
  | 0, dividend, _, quotient => (quotient, dividend)
  | k + 1, dividend, denominator, quotient =>
    let quotient2 := quotient.shl 1
    let p := if uint128_t.ge dividend denominator = true then
        (dividend.sub denominator, quotient2.lor (MakeUint128 0 1))
      else (dividend, quotient2)
    uint128_t.divLoop k p.1 (denominator.shr 1) p.2

/-- `uint128_t::DivMod(dividend, divisor, quotient_ret, remainder_ret)`:
early outs for `divisor > dividend` and `divisor == dividend`, otherwise the
left-aligned shift-subtract loop.  Returns `(quotient, remainder)`. -/
def uint128_t.DivMod (dividend divisor : uint128_t) : uint128_t × uint128_t :=
  if uint128_t.gt divisor dividend = true then (MakeUint128 0 0, dividend)
  else if uint128_t.beq divisor dividend = true then (MakeUint128 0 1, MakeUint128 0 0)
  else
    let shift := Fls128 dividend - Fls128 divisor
    let denominator := divisor.shl shift
    uint128_t.divLoop (shift + 1) dividend denominator (MakeUint128 0 0)

/-- C++ `operator/(uint128_t, uint128_t)` (portable path): runs `DivMod`
and returns the quotient. -/
def uint128_t.div (lhs rhs : uint128_t) : uint128_t := (uint128_t.DivMod lhs rhs).1

/-- C++ `operator%(uint128_t, uint128_t)` (portable path): runs `DivMod`
and returns the remainder. -/
def uint128_t.mod (lhs rhs : uint128_t) : uint128_t := (uint128_t.DivMod lhs rhs).2

/-- Mathematical restoring-division loop on plain naturals, mirrored by
`uint128_t.divLoop` at the value level. -/
def divLoopNat (r d q : Nat) : Nat → Nat × Nat
  | 0 => (q, r)
  | k + 1 =>
    let q2 := 2 * q
    let p := if d ≤ r then (r - d, q2 + 1) else (r, q2)
    divLoopNat p.1 (d / 2) p.2 k

/-!
## The formatter (uint128_t::ToFormattedString, src/int128.cpp)

The stream-insertion layer (field width, fill, adjustfield, showbase
prefixes) is outside the digit-grouping core modelled here; the model
covers the base field (oct/dec/hex) and the uppercase flag.
-/
inductive FmtBase where
  | oct
  | dec
  | hex
deriving DecidableEq

/-- Radix selected by the basefield flag. -/
def FmtBase.radix : FmtBase → Nat
  | .oct => 8
  | .dec => 10
  | .hex => 16

/-- One digit as printed by the standard stream, honouring the uppercase
flag for digits above 9. -/
def digitChar (upper : Bool) (d : Nat) : Char :=
  if d < 10 then Char.ofNat (48 + d) else Char.ofNat ((if upper then 65 else 97) + (d - 10))

/-- Little-endian digit list of `n` in the given base; fuel-driven so it
reduces by kernel evaluation (`n + 1` units of fuel always suffice). -/
def digitsLEAux (base : Nat) (upper : Bool) : Nat → Nat → List Char
  | 0, _ => []
  | fuel + 1, n =>
    if n < base then [digitChar upper n]
    else digitChar upper (n % base) :: digitsLEAux base upper fuel (n / base)

/-- Little-endian digit list of `n` (least significant first). -/
def digitsLE (base : Nat) (upper : Bool) (n : Nat) : List Char :=
  digitsLEAux base upper (n + 1) n

/-- The numeral of `n` in the given base, as `operator<<(std::ostream, uint64_t)`
prints it under the corresponding basefield/uppercase flags. -/
def natToBaseStr (base : Nat) (upper : Bool) (n : Nat) : String :=
  ⟨(digitsLE base upper n).reverse⟩

/-- The effect of `std::setfill('0') << std::setw(w)` on the next numeral:
left-pad with zeros to width `w`. -/
def zeroPad (w : Nat) (s : String) : String :=
  ⟨List.replicate (w - s.data.length) '0' ++ s.data⟩

/-- Exactly `w` little-endian digits of `b` (what the zero-padded chunk
prints, reversed). -/
def chunkLE (base : Nat) (upper : Bool) : Nat → Nat → List Char
  | 0, _ => []
  | w + 1, n => digitChar upper (n % base) :: chunkLE base upper w (n / base)

/-- Shared emission code of `uint128_t::ToFormattedString` after the chunk
divisor `d` (the largest power `bse ^ w` of the base below `2^64`) has been
selected: divide twice by `d`, print the most significant nonzero chunk
unpadded and the following chunks zero-padded to width `w`. -/
def uint128_t.formatChunks (d w bse : Nat) (upper : Bool) (v : uint128_t) : String :=
  let p1 := uint128_t.DivMod v (MakeUint128 0 d)
  let p2 := uint128_t.DivMod p1.1 (MakeUint128 0 d)
  if Uint128Low64 p2.1 ≠ 0 then
    natToBaseStr bse upper (Uint128Low64 p2.1)
      ++ zeroPad w (natToBaseStr bse upper (Uint128Low64 p2.2))
      ++ zeroPad w (natToBaseStr bse upper (Uint128Low64 p1.2))
  else if Uint128Low64 p2.2 ≠ 0 then
    natToBaseStr bse upper (Uint128Low64 p2.2)
      ++ zeroPad w (natToBaseStr bse upper (Uint128Low64 p1.2))
  else natToBaseStr bse upper (Uint128Low64 p1.2)

/-- `uint128_t::ToFormattedString`: the switch selects the chunk divisor
(`16^15` for hex, `8^21` for oct, `10^19` for dec) and the chunk width
(15/21/19 digits). -/
def uint128_t.ToFormattedString (v : uint128_t) (base : FmtBase) (upper : Bool) : String :=
  match base with
  | .hex => uint128_t.formatChunks 0x1000000000000000 15 16 upper v
  | .oct => uint128_t.formatChunks 0o1000000000000000000000 21 8 upper v
  | .dec => uint128_t.formatChunks 10000000000000000000 19 10 upper v

/-- `uint128_t::ToString`: formats with default flags (decimal). -/
def uint128_t.ToString (v : uint128_t) : String :=
  uint128_t.ToFormattedString v .dec false

/-!
## The signed type int128_t

`int128_t::DivMod` and `UnsignedAbsoluteValue` are in src/int128.cpp; the
trivial accessor/constructor bodies and the signed `operator+`/`operator*`
are in `int128_no_intrinsic.inc`, which is not under src/, so those pieces
are modelled from the spec (§3 data model, §7(b) wraparound).
-/
/-- Modelled from the spec: the `int128_t` two-limb storage of
`int128_no_intrinsic.inc` (absent from src/); spec §3: `{hi: signed 64-bit,
lo: unsigned 64-bit}`, value = two's-complement interpretation. -/
structure int128_t where
  lo : Nat
  hi : Int
deriving DecidableEq

/-- Modelled from the spec: accessor `Int128Low64` (int128_no_intrinsic.inc,
absent from src/), bit-exact low limb. -/
def Int128Low64 (v : int128_t) : Nat := v.lo

/-- Modelled from the spec: accessor `Int128High64` (int128_no_intrinsic.inc,
absent from src/), bit-exact high limb carrying the sign. -/
def Int128High64 (v : int128_t) : Int := v.hi

/-- Modelled from the spec: factory `MakeInt128(high, low)`
(int128_no_intrinsic.inc, absent from src/). -/
def MakeInt128 (high : Int) (low : Nat) : int128_t := ⟨low, high⟩

/-- The low limb is a 64-bit value and the high limb a signed 64-bit value. -/
def int128_t.Wf (v : int128_t) : Prop :=
  v.lo < 2 ^ 64 ∧ -(2 ^ 63) ≤ v.hi ∧ v.hi < 2 ^ 63

instance (v : int128_t) : Decidable v.Wf := by
  unfold int128_t.Wf
  infer_instance

/-- Two's-complement value `hi * 2^64 + lo` of an `int128_t`. -/
def int128_t.val (v : int128_t) : Int := v.hi * 2 ^ 64 + (v.lo : Int)

/-- `Int128Min()`: `MakeInt128(min int64, 0)`. -/
def Int128Min : int128_t := MakeInt128 (-(2 ^ 63)) 0

/-- `Int128Max()`: `MakeInt128(max int64, max uint64)`. -/
def Int128Max : int128_t := MakeInt128 (2 ^ 63 - 1) (2 ^ 64 - 1)

/-- `int128_t_internal::BitCastToSigned` (include/abslint128.h): reinterprets
a `uint64_t` pattern as `int64_t`; the complement-roundtrip
`~int64(~v)` used there equals `v - 2^64` when the top bit is set. -/
def int128_t_internal.BitCastToSigned (v : Nat) : Int :=
  if 2 ^ 63 ≤ v then (v : Int) - 2 ^ 64 else (v : Int)

/-- Constructor `uint128_t(int128_t v)` (include/abslint128.h):
`lo_ = Int128Low64(v)`, `hi_ = static_cast<uint64_t>(Int128High64(v))`
(the unsigned cast reduces the signed limb modulo `2^64`). -/
def uint128_t.ofInt128 (v : int128_t) : uint128_t :=
  ⟨Int128Low64 v, (Int128High64 v % (2 ^ 64 : Int)).toNat⟩

/-- `UnsignedAbsoluteValue` (src/int128.cpp): cast to `uint128_t` before
possibly negating, because `-Int128Min()` is undefined. -/
def UnsignedAbsoluteValue (v : int128_t) : uint128_t :=
  if Int128High64 v < 0 then (uint128_t.ofInt128 v).neg else uint128_t.ofInt128 v

/-- `int128_t::DivMod` (src/int128.cpp): unsigned divide of the absolute
values, then negate the quotient when the signs differ and the remainder
when the dividend is negative; precondition: divisor nonzero and not
(dividend = Int128Min and divisor = -1). -/
def int128_t.DivMod (dividend divisor : int128_t) : int128_t × int128_t :=
  let p := uint128_t.DivMod (UnsignedAbsoluteValue dividend) (UnsignedAbsoluteValue divisor)
  let quotient := if (decide (Int128High64 dividend < 0)) ≠ (decide (Int128High64 divisor < 0))
    then p.1.neg else p.1
  let remainder := if Int128High64 dividend < 0 then p.2.neg else p.2
  (MakeInt128 (int128_t_internal.BitCastToSigned (Uint128High64 quotient))
      (Uint128Low64 quotient),
   MakeInt128 (int128_t_internal.BitCastToSigned (Uint128High64 remainder))
      (Uint128Low64 remainder))

/-- C++ `operator/(int128_t, int128_t)` (src/int128.cpp): repeats the
`DivMod` computation and keeps the quotient. -/
def int128_t.div (lhs rhs : int128_t) : int128_t := (int128_t.DivMod lhs rhs).1

/-- C++ `operator%(int128_t, int128_t)` (src/int128.cpp): repeats the
`DivMod` computation and keeps the remainder. -/
def int128_t.mod (lhs rhs : int128_t) : int128_t := (int128_t.DivMod lhs rhs).2

/-- Modelled from the spec: packs an arbitrary integer into `int128_t` by
two's-complement wraparound modulo `2^128` (spec §7(b)); used to model the
signed `operator+` and `operator*` of `int128_no_intrinsic.inc` (absent
from src/). -/
def int128_t.ofWrapped (x : Int) : int128_t :=
  MakeInt128 (int128_t_internal.BitCastToSigned ((x % (2 ^ 128 : Int)).toNat / 2 ^ 64))
    ((x % (2 ^ 128 : Int)).toNat % 2 ^ 64)

/-- Modelled from the spec: `operator+(int128_t, int128_t)` wraps silently
modulo `2^128` (spec §7(b); body in int128_no_intrinsic.inc, absent from
src/). -/
def int128_t.add (a b : int128_t) : int128_t := int128_t.ofWrapped (a.val + b.val)

/-- Modelled from the spec: `operator*(int128_t, int128_t)` wraps silently
modulo `2^128` (spec §7(b); body in int128_no_intrinsic.inc, absent from
src/). -/
def int128_t.mul (a b : int128_t) : int128_t := int128_t.ofWrapped (a.val * b.val)

theorem bitlenAux_congr : ∀ f1 f2 n, n ≤ f1 → n ≤ f2 →
    bitlenAux f1 n = bitlenAux f2 n := by
  intro f1
  induction f1 with
  | zero =>
    intro f2 n h1 _
    have hn : n = 0 := Nat.le_zero.mp h1
    subst hn
    cases f2 <;> simp [bitlenAux]
  | succ f ih =>
    intro f2 n h1 h2
    by_cases hn : n = 0
    · subst hn
      cases f2 <;> simp [bitlenAux]
    · have hpos : 1 ≤ n := Nat.one_le_iff_ne_zero.mpr hn
      obtain ⟨g, rfl⟩ : ∃ g, f2 = g + 1 := ⟨f2 - 1, by omega⟩
      have hd : n / 2 ≤ f := by omega
      have hd2 : n / 2 ≤ g := by omega
      simp [bitlenAux, hn, ih g (n / 2) hd hd2]

theorem bitlen_zero : bitlen 0 = 0 := rfl

theorem bitlen_succ (n : Nat) (h : n ≠ 0) : bitlen n = bitlen (n / 2) + 1 := by
  have hpos : 1 ≤ n := Nat.one_le_iff_ne_zero.mpr h
  show bitlenAux n n = bitlenAux (n / 2) (n / 2) + 1
  obtain ⟨m, rfl⟩ : ∃ m, n = m + 1 := ⟨n - 1, by omega⟩
  simp [bitlenAux, bitlenAux_congr m ((m + 1) / 2) ((m + 1) / 2) (by omega) (by omega)]

/-- Sandwich property of `bitlen` for positive input. -/
theorem bitlen_spec : ∀ n, 0 < n → 2 ^ (bitlen n - 1) ≤ n ∧ n < 2 ^ bitlen n := by
  intro n
  induction n using Nat.strong_induction_on with
  | _ n ih =>
    intro hpos
    rcases Nat.lt_or_ge n 2 with h2 | h2
    · interval_cases n
      constructor <;> simp [bitlen, bitlenAux]
    · have hne : n ≠ 0 := by omega
      have hrec := bitlen_succ n hne
      have hhalf : 0 < n / 2 := by omega
      have := ih (n / 2) (by omega) hhalf
      obtain ⟨hlo, hhi⟩ := this
      have hb1 : 1 ≤ bitlen (n / 2) := by
        by_contra hc
        have : bitlen (n / 2) = 0 := by omega
        rw [this] at hhi
        omega
      constructor
      · rw [hrec]
        have : 2 ^ (bitlen (n / 2) + 1 - 1) = 2 ^ (bitlen (n / 2) - 1) * 2 := by
          rw [← Nat.pow_succ]
          congr 1
          omega
        rw [this]
        omega
      · rw [hrec, Nat.pow_succ]
        omega

theorem bitlen_unique {n m : Nat} (h1 : 2 ^ m ≤ n) (h2 : n < 2 ^ (m + 1)) :
    bitlen n = m + 1 := by
  have hpos : 0 < n := Nat.lt_of_lt_of_le (Nat.pos_pow_of_pos m (by omega)) h1
  obtain ⟨hlo, hhi⟩ := bitlen_spec n hpos
  have hb1 : 1 ≤ bitlen n := by
    by_contra hc
    have : bitlen n = 0 := by omega
    rw [this] at hhi
    omega
  have hlt : m < bitlen n := by
    have := Nat.lt_of_le_of_lt h1 hhi
    exact (Nat.pow_lt_pow_iff_right (by omega)).mp this
  have hgt : bitlen n - 1 < m + 1 := by
    have := Nat.lt_of_le_of_lt hlo h2
    exact (Nat.pow_lt_pow_iff_right (by omega)).mp this
  omega

theorem bitlen_le_of_lt_pow {n m : Nat} (h : n < 2 ^ m) : bitlen n ≤ m := by
  rcases Nat.eq_zero_or_pos n with h0 | hpos
  · subst h0
    simp [bitlen_zero]
  · obtain ⟨hlo, _⟩ := bitlen_spec n hpos
    by_contra hc
    have hm : m ≤ bitlen n - 1 := by omega
    have := Nat.pow_le_pow_right (n := 2) (by omega) hm
    omega

theorem bitlen_ge_of_pow_le {n m : Nat} (h : 2 ^ m ≤ n) : m + 1 ≤ bitlen n := by
  have hpos : 0 < n := Nat.lt_of_lt_of_le (Nat.pos_pow_of_pos m (by omega)) h
  obtain ⟨_, hhi⟩ := bitlen_spec n hpos
  have := Nat.lt_of_le_of_lt h hhi
  exact (Nat.pow_lt_pow_iff_right (by omega)).mp this

theorem bitlen_div_pow {n : Nat} : ∀ k, 2 ^ k ≤ n → bitlen (n / 2 ^ k) = bitlen n - k := by
  intro k
  induction k generalizing n with
  | zero => intro _; simp
  | succ k ih =>
    intro h
    have hn2 : 2 ^ k ≤ n / 2 := by
      rw [Nat.pow_succ] at h
      omega
    have hne : n ≠ 0 := by
      have : 0 < 2 ^ (k + 1) := Nat.pos_pow_of_pos _ (by omega)
      omega
    have e : n / 2 ^ (k + 1) = (n / 2) / 2 ^ k := by
      rw [Nat.div_div_eq_div_mul, Nat.pow_succ, Nat.mul_comm]
    rw [e, ih hn2, bitlen_succ n hne]
    have := bitlen_ge_of_pow_le hn2
    omega

theorem bitlen_eq_log2 {n : Nat} (h : 0 < n) : bitlen n = Nat.log2 n + 1 := by
  have h1 : 2 ^ Nat.log2 n ≤ n := Nat.log2_self_le (by omega)
  have h2 : n < 2 ^ (Nat.log2 n + 1) := Nat.lt_log2_self
  exact bitlen_unique h1 h2

/-- Disjoint bitwise or is addition: a multiple of `2 ^ n` or-ed with a
number below `2 ^ n` just adds them. -/
theorem lor_mul_pow_add : ∀ n c b : Nat, b < 2 ^ n → (2 ^ n * c) ||| b = 2 ^ n * c + b := by
  intro n
  induction n with
  | zero =>
    intro c b hb
    have hb0 : b = 0 := by omega
    subst hb0
    simp
  | succ n ih =>
    intro c b hb
    have e1 : 2 ^ (n + 1) * c = Nat.bit false (2 ^ n * c) := by
      simp [Nat.bit_val, Nat.pow_succ]
      ring
    have e2 : b = Nat.bit (Nat.bodd b) (Nat.div2 b) := (Nat.bit_decomp b).symm
    rw [e1]
    conv_lhs => rw [e2]
    rw [Nat.lor_bit]
    have hdb : Nat.div2 b < 2 ^ n := by
      rw [Nat.div2_val]
      omega
    rw [Nat.bit_val, Bool.false_or, ih c (Nat.div2 b) hdb, Nat.bit_val]
    have hmod : b % 2 = (Nat.bodd b).toNat := Nat.mod_two_of_bodd b
    rw [Nat.div2_val, ← hmod, Bool.toNat_false]
    omega

@[simp] theorem uint128_t.lo_mk (l h : Nat) : (uint128_t.mk l h).lo = l := rfl

@[simp] theorem uint128_t.hi_mk (l h : Nat) : (uint128_t.mk l h).hi = h := rfl

/-!
## Value semantics of the uint128_t operators
-/
theorem uint128_t.val_lt (v : uint128_t) (h : v.Wf) : v.val < 2 ^ 128 := by
  obtain ⟨h1, h2⟩ := h
  unfold uint128_t.val
  omega

theorem uint128_t.val_inj {a b : uint128_t} (ha : a.Wf) (hb : b.Wf)
    (h : a.val = b.val) : a = b := by
  obtain ⟨al, ah⟩ := a
  obtain ⟨bl, bh⟩ := b
  simp only [uint128_t.Wf, uint128_t.lo_mk, uint128_t.hi_mk] at ha hb
  obtain ⟨ha1, ha2⟩ := ha
  obtain ⟨hb1, hb2⟩ := hb
  simp only [uint128_t.val] at h
  simp only [uint128_t.mk.injEq]
  constructor <;> omega

theorem uint128_t.add_spec (a b : uint128_t) (ha : a.Wf) (hb : b.Wf) :
    (a.add b).Wf ∧ (a.add b).val = (a.val + b.val) % 2 ^ 128 := by
  obtain ⟨al, ah⟩ := a
  obtain ⟨bl, bh⟩ := b
  simp only [uint128_t.Wf, uint128_t.lo_mk, uint128_t.hi_mk] at ha hb
  obtain ⟨ha1, ha2⟩ := ha
  obtain ⟨hb1, hb2⟩ := hb
  simp only [uint128_t.add, MakeUint128, Uint128Low64, Uint128High64, uint128_t.val,
    uint128_t.Wf, uint128_t.lo_mk, uint128_t.hi_mk]
  split_ifs with h <;> simp only [uint128_t.lo_mk, uint128_t.hi_mk] <;>
    refine ⟨⟨?_, ?_⟩, ?_⟩ <;> omega

theorem uint128_t.sub_spec (a b : uint128_t) (ha : a.Wf) (hb : b.Wf) :
    (a.sub b).Wf ∧ (a.sub b).val = (a.val + 2 ^ 128 - b.val) % 2 ^ 128 := by
  obtain ⟨al, ah⟩ := a
  obtain ⟨bl, bh⟩ := b
  simp only [uint128_t.Wf, uint128_t.lo_mk, uint128_t.hi_mk] at ha hb
  obtain ⟨ha1, ha2⟩ := ha
  obtain ⟨hb1, hb2⟩ := hb
  simp only [uint128_t.sub, sub64, MakeUint128, Uint128Low64, Uint128High64, uint128_t.val,
    uint128_t.Wf, uint128_t.lo_mk, uint128_t.hi_mk]
  split_ifs with h <;> simp only [uint128_t.lo_mk, uint128_t.hi_mk] <;>
    refine ⟨⟨?_, ?_⟩, ?_⟩ <;> omega

theorem uint128_t.neg_spec (v : uint128_t) (h : v.Wf) :
    v.neg.Wf ∧ v.neg.val = (2 ^ 128 - v.val) % 2 ^ 128 := by
  obtain ⟨lo, hi⟩ := v
  simp only [uint128_t.Wf, uint128_t.lo_mk, uint128_t.hi_mk] at h
  obtain ⟨h1, h2⟩ := h
  simp only [uint128_t.neg, MakeUint128, Uint128Low64, Uint128High64, uint128_t.val,
    uint128_t.Wf, uint128_t.lo_mk, uint128_t.hi_mk]
  split_ifs with h <;> simp only [uint128_t.lo_mk, uint128_t.hi_mk] <;>
    refine ⟨⟨?_, ?_⟩, ?_⟩ <;> omega

theorem uint128_t.lt_iff {a b : uint128_t} (ha : a.Wf) (hb : b.Wf) :
    a.lt b = true ↔ a.val < b.val := by
  obtain ⟨al, ah⟩ := a
  obtain ⟨bl, bh⟩ := b
  simp only [uint128_t.Wf, uint128_t.lo_mk, uint128_t.hi_mk] at ha hb
  obtain ⟨ha1, ha2⟩ := ha
  obtain ⟨hb1, hb2⟩ := hb
  simp only [uint128_t.lt, Uint128Low64, Uint128High64, uint128_t.val, uint128_t.lo_mk,
    uint128_t.hi_mk]
  split_ifs with h <;> simp <;> omega

theorem uint128_t.beq_iff {a b : uint128_t} (ha : a.Wf) (hb : b.Wf) :
    a.beq b = true ↔ a.val = b.val := by
  obtain ⟨al, ah⟩ := a
  obtain ⟨bl, bh⟩ := b
  simp only [uint128_t.Wf, uint128_t.lo_mk, uint128_t.hi_mk] at ha hb
  obtain ⟨ha1, ha2⟩ := ha
  obtain ⟨hb1, hb2⟩ := hb
  simp only [uint128_t.beq, Uint128Low64, Uint128High64, uint128_t.val, Bool.and_eq_true,
    decide_eq_true_eq, uint128_t.lo_mk, uint128_t.hi_mk]
  omega

theorem uint128_t.ge_iff {a b : uint128_t} (ha : a.Wf) (hb : b.Wf) :
    a.ge b = true ↔ b.val ≤ a.val := by
  have := uint128_t.lt_iff ha hb
  simp only [uint128_t.ge, Bool.not_eq_true']
  rcases Bool.eq_false_or_eq_true (a.lt b) with h | h <;> simp [h] at this ⊢ <;> omega

theorem uint128_t.gt_iff {a b : uint128_t} (ha : a.Wf) (hb : b.Wf) :
    a.gt b = true ↔ b.val < a.val := by
  exact uint128_t.lt_iff hb ha

/-- Pure-arithmetic core of the in-range left shift: two limbs of width
`log q + log p` shifted left by `log p`. -/
theorem two_limb_shl (p q hi lo : Nat) (hp : 0 < p) (hq : 0 < q)
    (hlo : lo < q * p) :
    (p * (hi % q) + lo / q) * (q * p) + lo % q * p
      = (hi * (q * p) + lo) * p % (q * p * (q * p)) := by
  have hmq : hi % q < q := Nat.mod_lt _ hq
  have hlq : lo % q < q := Nat.mod_lt _ hq
  have hdq : lo / q < p := by
    rw [Nat.div_lt_iff_lt_mul hq]
    calc lo < q * p := hlo
    _ = p * q := Nat.mul_comm _ _
  have hexp : (hi * (q * p) + lo) * p
      = q * p * (q * p) * (hi / q) + ((p * (hi % q) + lo / q) * (q * p) + lo % q * p) := by
    conv_lhs => rw [show hi = q * (hi / q) + hi % q from (Nat.div_add_mod hi q).symm,
      show lo = q * (lo / q) + lo % q from (Nat.div_add_mod lo q).symm]
    ring
  have hB1 : p * (hi % q) + lo / q < q * p := by
    have h1 : p * (hi % q + 1) ≤ p * q := Nat.mul_le_mul_left p (by omega)
    have h2 : p * (hi % q + 1) = p * (hi % q) + p := by ring
    have h3 : p * q = q * p := Nat.mul_comm _ _
    omega
  have hB : (p * (hi % q) + lo / q) * (q * p) + lo % q * p < q * p * (q * p) := by
    have h2 : (p * (hi % q) + lo / q + 1) * (q * p) ≤ q * p * (q * p) :=
      Nat.mul_le_mul_right (q * p) (by omega)
    have h4 : (p * (hi % q) + lo / q + 1) * (q * p)
        = (p * (hi % q) + lo / q) * (q * p) + q * p := by ring
    have h3 : lo % q * p < q * p := by
      have := Nat.mul_le_mul_right p (show lo % q + 1 ≤ q by omega)
      have he : (lo % q + 1) * p = lo % q * p + p := by ring
      omega
    omega
  rw [hexp, Nat.mul_add_mod, Nat.mod_eq_of_lt hB]

/-- Pure-arithmetic core of the in-range right shift. -/
theorem two_limb_shr (p q hi lo : Nat) (hp : 0 < p) :
    hi / p * (q * p) + (hi % p * q + lo / p) = (hi * (q * p) + lo) / p := by
  conv_rhs => rw [show hi = p * (hi / p) + hi % p from (Nat.div_add_mod hi p).symm]
  have h : (p * (hi / p) + hi % p) * (q * p) + lo
      = p * (hi / p * (q * p) + hi % p * q) + lo := by ring
  rw [h, Nat.mul_add_div hp]
  omega

theorem uint128_t.shl_spec (v : uint128_t) (k : Nat) (hv : v.Wf) (hk : k < 128) :
    (v.shl k).Wf ∧ (v.shl k).val = v.val * 2 ^ k % 2 ^ 128 := by
  obtain ⟨lo, hi⟩ := v
  simp only [uint128_t.Wf, uint128_t.lo_mk, uint128_t.hi_mk] at hv
  obtain ⟨h1, h2⟩ := hv
  simp only [uint128_t.shl, MakeUint128, Uint128Low64, Uint128High64, uint128_t.val,
    uint128_t.Wf, uint128_t.lo_mk, uint128_t.hi_mk]
  split_ifs with hlt hz <;> simp only [uint128_t.lo_mk, uint128_t.hi_mk]
  · -- 0 < k < 64
    have hp : (0:Nat) < 2 ^ k := Nat.pos_pow_of_pos _ (by omega)
    have hq : (0:Nat) < 2 ^ (64 - k) := Nat.pos_pow_of_pos _ (by omega)
    have hqp : 2 ^ (64 - k) * 2 ^ k = 2 ^ 64 := by
      rw [← Nat.pow_add]
      congr 1
      omega
    have hpq : 2 ^ k * 2 ^ (64 - k) = 2 ^ 64 := by
      rw [← Nat.pow_add]
      congr 1
      omega
    have hmm : hi * 2 ^ k % 2 ^ 64 = hi % 2 ^ (64 - k) * 2 ^ k := by
      rw [← hqp, Nat.mul_mod_mul_right]
    have hmml : lo * 2 ^ k % 2 ^ 64 = lo % 2 ^ (64 - k) * 2 ^ k := by
      rw [← hqp, Nat.mul_mod_mul_right]
    have hdiv : lo / 2 ^ (64 - k) < 2 ^ k := by
      rw [Nat.div_lt_iff_lt_mul hq, hpq]
      exact h1
    rw [hmm, Nat.mul_comm (hi % 2 ^ (64 - k)) (2 ^ k), lor_mul_pow_add k _ _ hdiv, hmml]
    have hWfhi : 2 ^ k * (hi % 2 ^ (64 - k)) + lo / 2 ^ (64 - k) < 2 ^ 64 := by
      have hx : 2 ^ k * (hi % 2 ^ (64 - k) + 1) ≤ 2 ^ k * 2 ^ (64 - k) :=
        Nat.mul_le_mul_left _ (by have := Nat.mod_lt hi hq; omega)
      have hx2 : 2 ^ k * (hi % 2 ^ (64 - k) + 1) = 2 ^ k * (hi % 2 ^ (64 - k)) + 2 ^ k := by
        ring
      omega
    refine ⟨⟨by omega, hWfhi⟩, ?_⟩
    have h64 : (2:Nat) ^ 64 = 2 ^ (64 - k) * 2 ^ k := hqp.symm
    have h128 : (2:Nat) ^ 128 = 2 ^ (64 - k) * 2 ^ k * (2 ^ (64 - k) * 2 ^ k) := by
      rw [hqp]
      norm_num
    rw [h64, h128]
    exact two_limb_shl (2 ^ k) (2 ^ (64 - k)) hi lo hp hq (hqp ▸ h1)
  · -- k = 0
    have hz0 : k = 0 := by omega
    subst hz0
    simp only [Nat.pow_zero, Nat.mul_one]
    exact ⟨⟨h1, h2⟩, (Nat.mod_eq_of_lt (by omega)).symm⟩
  · -- 64 ≤ k < 128
    have hk64 : 64 ≤ k := by omega
    refine ⟨⟨by omega, Nat.mod_lt _ (by omega)⟩, ?_⟩
    have h128eq : (2:Nat) ^ 128 = 2 ^ 64 * 2 ^ 64 := by norm_num
    have hke : (2:Nat) ^ k = 2 ^ (k - 64) * 2 ^ 64 := by
      rw [← Nat.pow_add]
      congr 1
      omega
    have hnum : (hi * 2 ^ 64 + lo) * 2 ^ k
        = lo * 2 ^ (k - 64) * 2 ^ 64 + hi * 2 ^ (k - 64) * (2 ^ 64 * 2 ^ 64) := by
      rw [hke]
      ring
    rw [hnum, h128eq, Nat.add_mul_mod_self_right, Nat.mul_mod_mul_right]
    omega

theorem uint128_t.mul_spec (a b : uint128_t) (ha : a.Wf) (hb : b.Wf) :
    (a.mul b).Wf ∧ (a.mul b).val = a.val * b.val % 2 ^ 128 := by
  obtain ⟨al, ah⟩ := a
  obtain ⟨bl, bh⟩ := b
  simp only [uint128_t.Wf, uint128_t.lo_mk, uint128_t.hi_mk] at ha hb
  obtain ⟨ha1, ha2⟩ := ha
  obtain ⟨hb1, hb2⟩ := hb
  simp only [uint128_t.mul, Uint128Low64, Uint128High64, uint128_t.lo_mk, uint128_t.hi_mk]
  have hr0 : (MakeUint128 ((ah * bl + al * bh + al / 2 ^ 32 * (bl / 2 ^ 32)) % 2 ^ 64)
      (al % 2 ^ 32 * (bl % 2 ^ 32) % 2 ^ 64)).Wf := by
    constructor <;> simp [MakeUint128] <;> omega
  have hof1 : (uint128_t.ofNat64 (al / 2 ^ 32 * (bl % 2 ^ 32) % 2 ^ 64)).Wf := by
    constructor <;> simp [uint128_t.ofNat64] <;> omega
  have hof2 : (uint128_t.ofNat64 (al % 2 ^ 32 * (bl / 2 ^ 32) % 2 ^ 64)).Wf := by
    constructor <;> simp [uint128_t.ofNat64] <;> omega
  have hs1 := uint128_t.shl_spec (uint128_t.ofNat64 (al / 2 ^ 32 * (bl % 2 ^ 32) % 2 ^ 64)) 32
    hof1 (by omega)
  have hs2 := uint128_t.shl_spec (uint128_t.ofNat64 (al % 2 ^ 32 * (bl / 2 ^ 32) % 2 ^ 64)) 32
    hof2 (by omega)
  have h1 := uint128_t.add_spec
    (MakeUint128 ((ah * bl + al * bh + al / 2 ^ 32 * (bl / 2 ^ 32)) % 2 ^ 64)
      (al % 2 ^ 32 * (bl % 2 ^ 32) % 2 ^ 64))
    ((uint128_t.ofNat64 (al / 2 ^ 32 * (bl % 2 ^ 32) % 2 ^ 64)).shl 32) hr0 hs1.1
  have h2 := uint128_t.add_spec
    ((MakeUint128 ((ah * bl + al * bh + al / 2 ^ 32 * (bl / 2 ^ 32)) % 2 ^ 64)
      (al % 2 ^ 32 * (bl % 2 ^ 32) % 2 ^ 64)).add
      ((uint128_t.ofNat64 (al / 2 ^ 32 * (bl % 2 ^ 32) % 2 ^ 64)).shl 32))
    ((uint128_t.ofNat64 (al % 2 ^ 32 * (bl / 2 ^ 32) % 2 ^ 64)).shl 32) h1.1 hs2.1
  refine ⟨h2.1, ?_⟩
  rw [h2.2, h1.2, hs1.2, hs2.2]
  simp only [uint128_t.ofNat64, uint128_t.val, MakeUint128, uint128_t.lo_mk, uint128_t.hi_mk,
    Nat.zero_mul, Nat.zero_add]
  have hx' : al / 2 ^ 32 < 2 ^ 32 := by omega
  have hz' : bl / 2 ^ 32 < 2 ^ 32 := by omega
  generalize hX : al / 2 ^ 32 = x
  generalize hY : al % 2 ^ 32 = y
  generalize hZ : bl / 2 ^ 32 = z
  generalize hW : bl % 2 ^ 32 = w
  have hxb : x < 2 ^ 32 := by omega
  have hyb : y < 2 ^ 32 := by omega
  have hzb : z < 2 ^ 32 := by omega
  have hwb : w < 2 ^ 32 := by omega
  have hale : al = x * 2 ^ 32 + y := by omega
  have hble : bl = z * 2 ^ 32 + w := by omega
  rw [hale, hble]
  have e : (ah * 2 ^ 64 + (x * 2 ^ 32 + y)) * (bh * 2 ^ 64 + (z * 2 ^ 32 + w))
      = ah * bh * 2 ^ 128
        + (ah * (z * 2 ^ 32 + w) + (x * 2 ^ 32 + y) * bh + x * z) * 2 ^ 64
        + (x * w) * 2 ^ 32 + (y * z) * 2 ^ 32 + y * w := by
    ring
  have b1 : x * z ≤ (2 ^ 32 - 1) * (2 ^ 32 - 1) := Nat.mul_le_mul (by omega) (by omega)
  have b2 : x * w ≤ (2 ^ 32 - 1) * (2 ^ 32 - 1) := Nat.mul_le_mul (by omega) (by omega)
  have b3 : y * z ≤ (2 ^ 32 - 1) * (2 ^ 32 - 1) := Nat.mul_le_mul (by omega) (by omega)
  have b4 : y * w ≤ (2 ^ 32 - 1) * (2 ^ 32 - 1) := Nat.mul_le_mul (by omega) (by omega)
  omega

theorem uint128_t.shr_spec (v : uint128_t) (k : Nat) (hv : v.Wf) (hk : k < 128) :
    (v.shr k).Wf ∧ (v.shr k).val = v.val / 2 ^ k := by
  obtain ⟨lo, hi⟩ := v
  simp only [uint128_t.Wf, uint128_t.lo_mk, uint128_t.hi_mk] at hv
  obtain ⟨h1, h2⟩ := hv
  simp only [uint128_t.shr, MakeUint128, Uint128Low64, Uint128High64, uint128_t.val,
    uint128_t.Wf, uint128_t.lo_mk, uint128_t.hi_mk]
  split_ifs with hlt hz <;> simp only [uint128_t.lo_mk, uint128_t.hi_mk]
  · -- 0 < k < 64
    have hp : (0:Nat) < 2 ^ k := Nat.pos_pow_of_pos _ (by omega)
    have hq : (0:Nat) < 2 ^ (64 - k) := Nat.pos_pow_of_pos _ (by omega)
    have hqp : 2 ^ (64 - k) * 2 ^ k = 2 ^ 64 := by
      rw [← Nat.pow_add]
      congr 1
      omega
    have hpq : 2 ^ k * 2 ^ (64 - k) = 2 ^ 64 := by
      rw [← Nat.pow_add]
      congr 1
      omega
    have hmm : hi * 2 ^ (64 - k) % 2 ^ 64 = hi % 2 ^ k * 2 ^ (64 - k) := by
      rw [← hpq, Nat.mul_mod_mul_right]
    have hdiv : lo / 2 ^ k < 2 ^ (64 - k) := by
      rw [Nat.div_lt_iff_lt_mul hp, hqp]
      exact h1
    rw [hmm, Nat.lor_comm, Nat.mul_comm (hi % 2 ^ k) (2 ^ (64 - k)),
      lor_mul_pow_add (64 - k) _ _ hdiv]
    have hWflo : 2 ^ (64 - k) * (hi % 2 ^ k) + lo / 2 ^ k < 2 ^ 64 := by
      have hx : 2 ^ (64 - k) * (hi % 2 ^ k + 1) ≤ 2 ^ (64 - k) * 2 ^ k :=
        Nat.mul_le_mul_left _ (by have := Nat.mod_lt hi hp; omega)
      have hx2 : 2 ^ (64 - k) * (hi % 2 ^ k + 1)
          = 2 ^ (64 - k) * (hi % 2 ^ k) + 2 ^ (64 - k) := by
        ring
      omega
    refine ⟨⟨hWflo, Nat.lt_of_le_of_lt (Nat.div_le_self _ _) h2⟩, ?_⟩
    have h64 : (2:Nat) ^ 64 = 2 ^ (64 - k) * 2 ^ k := hqp.symm
    rw [h64]
    have := two_limb_shr (2 ^ k) (2 ^ (64 - k)) hi lo hp
    rw [← this]
    ring
  · -- k = 0
    have hz0 : k = 0 := by omega
    subst hz0
    simp only [Nat.pow_zero, Nat.div_one]
    exact ⟨⟨h1, h2⟩, trivial⟩
  · -- 64 ≤ k < 128
    have hk64 : 64 ≤ k := by omega
    refine ⟨⟨Nat.lt_of_le_of_lt (Nat.div_le_self _ _) h2, by omega⟩, ?_⟩
    have hke : (2:Nat) ^ k = 2 ^ 64 * 2 ^ (k - 64) := by
      rw [← Nat.pow_add]
      congr 1
      omega
    rw [hke, ← Nat.div_div_eq_div_mul]
    have he : (hi * 2 ^ 64 + lo) / 2 ^ 64 = hi := by
      rw [Nat.mul_comm hi, Nat.mul_add_div (by omega)]
      omega
    rw [he]
    omega

/-!
## Correctness of the leading-zero count and Fls128
-/
theorem CountLeadingZeros64_eq (n : Nat) : CountLeadingZeros64 n = 64 - bitlen n := by
  unfold CountLeadingZeros64
  split_ifs with h
  · subst h
    simp [bitlen_zero]
  · rfl

theorem clzNibble_add_bitlen : ∀ m, m < 16 → clzNibble m + bitlen m = 4 := by decide

theorem clzStep_spec (k : Nat) (p : Nat × Nat) (hv : p.2 < 2 ^ k * 2 ^ k) (hkz : k ≤ p.1) :
    (clzStep k p).2 < 2 ^ k ∧
    (clzStep k p).1 + bitlen p.2 = p.1 + bitlen (clzStep k p).2 ∧
    p.1 - k ≤ (clzStep k p).1 := by
  obtain ⟨z, v⟩ := p
  dsimp only at hv hkz ⊢
  unfold clzStep
  split_ifs with h
  · dsimp only at h ⊢
    have hpos : (0:Nat) < 2 ^ k := Nat.pos_pow_of_pos _ (by omega)
    have hge : 2 ^ k ≤ v := by
      by_contra hc
      push_neg at hc
      exact h (Nat.div_eq_of_lt hc)
    have hbd := bitlen_div_pow (n := v) k hge
    have hbg := bitlen_ge_of_pow_le hge
    have hlt : v / 2 ^ k < 2 ^ k := by
      rw [Nat.div_lt_iff_lt_mul hpos]
      exact hv
    exact ⟨hlt, by omega, by omega⟩
  · dsimp only at h ⊢
    push_neg at h
    have hpos : (0:Nat) < 2 ^ k := Nat.pos_pow_of_pos _ (by omega)
    have hlt : v < 2 ^ k := by
      by_contra hc
      push_neg at hc
      have h1 : 1 ≤ v / 2 ^ k := (Nat.one_le_div_iff hpos).mpr hc
      omega
    exact ⟨hlt, by omega, by omega⟩

theorem CountLeadingZeros64Slow_eq (n : Nat) (h : n < 2 ^ 64) :
    CountLeadingZeros64Slow n = 64 - bitlen n := by
  simp only [CountLeadingZeros64Slow]
  have s32 := clzStep_spec 32 (60, n) (by dsimp only; omega) (by dsimp only; omega)
  dsimp only at s32
  obtain ⟨s32a, s32b, s32c⟩ := s32
  obtain ⟨s16a, s16b, s16c⟩ := clzStep_spec 16 (clzStep 32 (60, n)) (by omega) (by omega)
  obtain ⟨s8a, s8b, s8c⟩ := clzStep_spec 8 (clzStep 16 (clzStep 32 (60, n))) (by omega) (by omega)
  obtain ⟨s4a, s4b, s4c⟩ :=
    clzStep_spec 4 (clzStep 8 (clzStep 16 (clzStep 32 (60, n)))) (by omega) (by omega)
  have htab := clzNibble_add_bitlen (clzStep 4 (clzStep 8 (clzStep 16 (clzStep 32 (60, n))))).2
    (by omega)
  have hbn : bitlen n ≤ 64 := bitlen_le_of_lt_pow h
  omega

/-- Bit length of a two-limb value with nonzero high limb. -/
theorem bitlen_hi_lo (hi lo : Nat) (hhi : hi ≠ 0) (hlo : lo < 2 ^ 64) :
    bitlen (hi * 2 ^ 64 + lo) = bitlen hi + 64 := by
  have hpos : 0 < hi := by omega
  obtain ⟨l1, l2⟩ := bitlen_spec hi hpos
  have hb1 : 1 ≤ bitlen hi := by
    by_contra hc
    have h0 : bitlen hi = 0 := by omega
    rw [h0] at l2
    omega
  have e1 : 2 ^ (bitlen hi - 1) * 2 ^ 64 = 2 ^ (bitlen hi + 63) := by
    rw [← Nat.pow_add]
    congr 1
    omega
  have e2 : (2:Nat) ^ bitlen hi * 2 ^ 64 = 2 ^ (bitlen hi + 64) := by
    rw [← Nat.pow_add]
  have lower : 2 ^ (bitlen hi + 63) ≤ hi * 2 ^ 64 + lo := by
    have := Nat.mul_le_mul_right (2 ^ 64) l1
    omega
  have upper : hi * 2 ^ 64 + lo < 2 ^ (bitlen hi + 63 + 1) := by
    have := Nat.mul_le_mul_right (2 ^ 64) (show hi + 1 ≤ 2 ^ bitlen hi by omega)
    have hd : (hi + 1) * 2 ^ 64 = hi * 2 ^ 64 + 2 ^ 64 := by ring
    have he : bitlen hi + 63 + 1 = bitlen hi + 64 := by omega
    rw [he]
    omega
  have := bitlen_unique lower upper
  omega

theorem Fls128_spec (v : uint128_t) (h : v.Wf) (hne : v.val ≠ 0) :
    Fls128 v = bitlen v.val - 1 ∧ 1 ≤ bitlen v.val ∧ bitlen v.val ≤ 128 := by
  obtain ⟨lo, hi⟩ := v
  simp only [uint128_t.Wf, uint128_t.lo_mk, uint128_t.hi_mk] at h
  obtain ⟨h1, h2⟩ := h
  simp only [uint128_t.val, uint128_t.lo_mk, uint128_t.hi_mk] at hne ⊢
  unfold Fls128
  simp only [Uint128Low64, Uint128High64, uint128_t.lo_mk, uint128_t.hi_mk]
  split_ifs with hh
  · rw [CountLeadingZeros64_eq, bitlen_hi_lo hi lo hh h1]
    have hble : bitlen hi ≤ 64 := bitlen_le_of_lt_pow h2
    have hbge : 1 ≤ bitlen hi := by
      have hpos : 0 < hi := by omega
      obtain ⟨_, l2⟩ := bitlen_spec hi hpos
      by_contra hc
      have h0 : bitlen hi = 0 := by omega
      rw [h0] at l2
      omega
    omega
  · push_neg at hh
    subst hh
    simp only [Nat.zero_mul, Nat.zero_add] at hne ⊢
    rw [CountLeadingZeros64_eq]
    have hble : bitlen lo ≤ 64 := bitlen_le_of_lt_pow h1
    have hbge : 1 ≤ bitlen lo := by
      have hpos : 0 < lo := by omega
      obtain ⟨_, l2⟩ := bitlen_spec lo hpos
      by_contra hc
      have h0 : bitlen lo = 0 := by omega
      rw [h0] at l2
      omega
    omega

/-!
## Correctness of the shift-subtract division loop
-/
theorem divLoopNat_succ (r d q k : Nat) :
    divLoopNat r d q (k + 1)
      = if d ≤ r then divLoopNat (r - d) (d / 2) (2 * q + 1) k
        else divLoopNat r (d / 2) (2 * q) k := by
  simp only [divLoopNat]
  split_ifs with h <;> rfl

theorem divLoopNat_correct : ∀ m D q r, 0 < D → r < D * 2 ^ (m + 1) →
    divLoopNat r (D * 2 ^ m) q (m + 1) = (q * 2 ^ (m + 1) + r / D, r % D) := by
  intro m
  induction m with
  | zero =>
    intro D q r hD hr
    rw [divLoopNat_succ]
    simp only [Nat.pow_zero, Nat.mul_one] at hr ⊢
    split_ifs with h
    · simp only [divLoopNat]
      have h1 : r / D = 1 := Nat.div_eq_of_lt_le (by omega) (by omega)
      have h2 : r % D = r - D := by
        rw [Nat.mod_eq_sub_mod h, Nat.mod_eq_of_lt (by omega)]
      rw [h1, h2]
      simp only [Prod.mk.injEq]
      exact ⟨by omega, trivial⟩
    · simp only [divLoopNat]
      have h1 : r / D = 0 := Nat.div_eq_of_lt (by omega)
      have h2 : r % D = r := Nat.mod_eq_of_lt (by omega)
      rw [h1, h2]
      simp only [Prod.mk.injEq]
      exact ⟨by omega, trivial⟩
  | succ m ih =>
    intro D q r hD hr
    rw [divLoopNat_succ]
    have hhalf : D * 2 ^ (m + 1) / 2 = D * 2 ^ m := by
      rw [Nat.pow_succ, ← Nat.mul_assoc]
      exact Nat.mul_div_cancel _ (by omega)
    have hexp : D * 2 ^ (m + 1 + 1) = D * 2 ^ (m + 1) * 2 := by
      rw [Nat.pow_succ, ← Nat.mul_assoc]
    split_ifs with h
    · rw [hhalf, ih D (2 * q + 1) (r - D * 2 ^ (m + 1)) hD (by omega)]
      have hdiv : r / D = 2 ^ (m + 1) + (r - D * 2 ^ (m + 1)) / D := by
        have e : r = D * 2 ^ (m + 1) + (r - D * 2 ^ (m + 1)) := by omega
        conv_lhs => rw [e]
        rw [Nat.mul_add_div hD]
      have hmod : r % D = (r - D * 2 ^ (m + 1)) % D := by
        have e : r = D * 2 ^ (m + 1) + (r - D * 2 ^ (m + 1)) := by omega
        conv_lhs => rw [e]
        rw [Nat.mul_add_mod]
      rw [hdiv, hmod]
      simp only [Prod.mk.injEq]
      refine ⟨?_, trivial⟩
      have e2 : (2:Nat) ^ (m + 1 + 1) = 2 ^ (m + 1) * 2 := by rw [Nat.pow_succ]
      have e3 : (2 * q + 1) * 2 ^ (m + 1) = q * (2 ^ (m + 1) * 2) + 2 ^ (m + 1) := by ring
      rw [e2]
      omega
    · rw [hhalf, ih D (2 * q) r hD (by omega)]
      simp only [Prod.mk.injEq]
      refine ⟨?_, trivial⟩
      have e2 : (2:Nat) ^ (m + 1 + 1) = 2 ^ (m + 1) * 2 := by rw [Nat.pow_succ]
      have e3 : 2 * q * 2 ^ (m + 1) = q * (2 ^ (m + 1) * 2) := by ring
      rw [e2]
      omega

theorem uint128_t.divLoop_succ (k : Nat) (r d q : uint128_t) :
    uint128_t.divLoop (k + 1) r d q
      = if uint128_t.ge r d = true then
          uint128_t.divLoop k (r.sub d) (d.shr 1) ((q.shl 1).lor (MakeUint128 0 1))
        else uint128_t.divLoop k r (d.shr 1) (q.shl 1) := by
  simp only [uint128_t.divLoop]
  split_ifs with h <;> rfl

theorem uint128_t.lor_one_spec (w : uint128_t) (hw : w.Wf) (heven : w.lo % 2 = 0) :
    (w.lor (MakeUint128 0 1)).Wf ∧ (w.lor (MakeUint128 0 1)).val = w.val + 1 := by
  obtain ⟨lo, hi⟩ := w
  simp only [uint128_t.Wf, uint128_t.lo_mk, uint128_t.hi_mk] at hw heven
  obtain ⟨h1, h2⟩ := hw
  simp only [uint128_t.lor, MakeUint128, Uint128Low64, Uint128High64, uint128_t.lo_mk,
    uint128_t.hi_mk, uint128_t.val, uint128_t.Wf, Nat.or_zero]
  have hlor : lo ||| 1 = lo + 1 := by
    conv_lhs => rw [show lo = 2 ^ 1 * (lo / 2) from by omega]
    rw [lor_mul_pow_add 1 _ 1 (by omega)]
    omega
  rw [hlor]
  exact ⟨⟨by omega, h2⟩, by ring⟩

theorem uint128_t.shl_one_lo_even (q : uint128_t) : (q.shl 1).lo % 2 = 0 := by
  simp only [uint128_t.shl, MakeUint128, Uint128Low64, Uint128High64]
  norm_num

theorem uint128_t.divLoop_refines : ∀ (k : Nat) (r d q : uint128_t), r.Wf → d.Wf → q.Wf →
    (q.val + 1) * 2 ^ k ≤ 2 ^ 128 →
    ((uint128_t.divLoop k r d q).1.Wf ∧ (uint128_t.divLoop k r d q).2.Wf) ∧
    (uint128_t.divLoop k r d q).1.val = (divLoopNat r.val d.val q.val k).1 ∧
    (uint128_t.divLoop k r d q).2.val = (divLoopNat r.val d.val q.val k).2 := by
  intro k
  induction k with
  | zero =>
    intro r d q hr hd hq _
    exact ⟨⟨hq, hr⟩, rfl, rfl⟩
  | succ k ih =>
    intro r d q hr hd hq hbound
    rw [uint128_t.divLoop_succ, divLoopNat_succ]
    have h2k : (2:Nat) ^ (k + 1) = 2 ^ k * 2 := by rw [Nat.pow_succ]
    have h2kp : (2:Nat) ^ 1 ≤ 2 ^ (k + 1) := Nat.pow_le_pow_right (by omega) (by omega)
    have hq1 := uint128_t.shl_spec q 1 hq (by omega)
    have hq1v : (q.shl 1).val = q.val * 2 := by
      rw [hq1.2]
      have e : q.val * 2 ^ 1 = q.val * 2 := by norm_num
      rw [e]
      apply Nat.mod_eq_of_lt
      have hg : (q.val + 1) * 2 ≤ (q.val + 1) * 2 ^ (k + 1) :=
        Nat.mul_le_mul_left _ (by omega)
      have hg2 : (q.val + 1) * 2 ^ (k + 1) ≤ 2 ^ 128 := hbound
      omega
    have hd1 := uint128_t.shr_spec d 1 hd (by omega)
    have hd1v : (d.shr 1).val = d.val / 2 := by
      rw [hd1.2]
      norm_num
    by_cases hge : uint128_t.ge r d = true
    · rw [if_pos hge, if_pos ((uint128_t.ge_iff hr hd).mp hge)]
      have hgev : d.val ≤ r.val := (uint128_t.ge_iff hr hd).mp hge
      have hsub := uint128_t.sub_spec r d hr hd
      have hsubv : (r.sub d).val = r.val - d.val := by
        rw [hsub.2]
        have hrlt := uint128_t.val_lt r hr
        omega
      have heven := uint128_t.shl_one_lo_even q
      have hlor := uint128_t.lor_one_spec (q.shl 1) hq1.1 heven
      have hlorv : ((q.shl 1).lor (MakeUint128 0 1)).val = 2 * q.val + 1 := by
        rw [hlor.2, hq1v]
        ring
      have hb2 : (((q.shl 1).lor (MakeUint128 0 1)).val + 1) * 2 ^ k ≤ 2 ^ 128 := by
        rw [hlorv]
        have e : (2 * q.val + 1 + 1) * 2 ^ k = (q.val + 1) * 2 ^ (k + 1) := by
          rw [h2k]
          ring
        omega
      have hres := ih (r.sub d) (d.shr 1) ((q.shl 1).lor (MakeUint128 0 1))
        hsub.1 hd1.1 hlor.1 hb2
      rw [hsubv, hd1v, hlorv] at hres
      exact hres
    · have hnge : ¬ d.val ≤ r.val := fun hc => hge ((uint128_t.ge_iff hr hd).mpr hc)
      rw [if_neg hge, if_neg hnge]
      have hb2 : ((q.shl 1).val + 1) * 2 ^ k ≤ 2 ^ 128 := by
        rw [hq1v]
        have hle : (q.val * 2 + 1) * 2 ^ k ≤ (q.val * 2 + 2) * 2 ^ k :=
          Nat.mul_le_mul_right _ (by omega)
        have e : (q.val * 2 + 2) * 2 ^ k = (q.val + 1) * 2 ^ (k + 1) := by
          rw [h2k]
          ring
        omega
      have hres := ih r (d.shr 1) (q.shl 1) hr hd1.1 hq1.1 hb2
      rw [hd1v, hq1v] at hres
      have e : q.val * 2 = 2 * q.val := by ring
      rw [e] at hres
      exact hres

/-- Functional correctness of `uint128_t::DivMod`: the returned pair is the
true quotient and remainder. -/
theorem uint128_t.DivMod_spec (a b : uint128_t) (ha : a.Wf) (hb : b.Wf) (hbne : b.val ≠ 0) :
    ((uint128_t.DivMod a b).1.Wf ∧ (uint128_t.DivMod a b).2.Wf) ∧
    (uint128_t.DivMod a b).1.val = a.val / b.val ∧
    (uint128_t.DivMod a b).2.val = a.val % b.val := by
  have hq0 : (MakeUint128 0 0).Wf := by norm_num [MakeUint128, uint128_t.Wf]
  have hq0v : (MakeUint128 0 0).val = 0 := by norm_num [MakeUint128, uint128_t.val]
  have hq1 : (MakeUint128 0 1).Wf := by norm_num [MakeUint128, uint128_t.Wf]
  have hq1v : (MakeUint128 0 1).val = 1 := by norm_num [MakeUint128, uint128_t.val]
  simp only [uint128_t.DivMod]
  split_ifs with h1 h2
  · -- divisor > dividend: quotient 0, remainder dividend
    have hlt : a.val < b.val := (uint128_t.gt_iff hb ha).mp h1
    dsimp only
    refine ⟨⟨hq0, ha⟩, ?_, ?_⟩
    · rw [hq0v, Nat.div_eq_of_lt hlt]
    · rw [Nat.mod_eq_of_lt hlt]
  · -- divisor == dividend: quotient 1, remainder 0
    have heq : b.val = a.val := (uint128_t.beq_iff hb ha).mp h2
    dsimp only
    refine ⟨⟨hq1, hq0⟩, ?_, ?_⟩
    · rw [hq1v, ← heq, Nat.div_self (by omega)]
    · rw [hq0v, ← heq, Nat.mod_self]
  · -- main shift-subtract case: b.val < a.val
    have hble : b.val ≤ a.val := by
      have hn : ¬ a.val < b.val := fun hc => h1 ((uint128_t.gt_iff hb ha).mpr hc)
      omega
    have hbneq : b.val ≠ a.val := fun hc => h2 ((uint128_t.beq_iff hb ha).mpr hc)
    have hblt : b.val < a.val := by omega
    have hane : a.val ≠ 0 := by omega
    obtain ⟨hfa1, hfa2, hfa3⟩ := Fls128_spec a ha hane
    obtain ⟨hfb1, hfb2, hfb3⟩ := Fls128_spec b hb hbne
    have hmono : bitlen b.val ≤ bitlen a.val := by
      obtain ⟨lb, ub⟩ := bitlen_spec b.val (by omega)
      obtain ⟨la, ua⟩ := bitlen_spec a.val (by omega)
      by_contra hc
      push_neg at hc
      have hm : bitlen a.val ≤ bitlen b.val - 1 := by omega
      have := Nat.pow_le_pow_right (n := 2) (by omega) hm
      omega
    set s := Fls128 a - Fls128 b with hs
    have hsval : s = bitlen a.val - bitlen b.val := by
      rw [hs, hfa1, hfb1]
      omega
    have hs128 : s < 128 := by omega
    have hshl := uint128_t.shl_spec b s hb hs128
    have hpow : 2 ^ bitlen b.val * 2 ^ s = 2 ^ bitlen a.val := by
      have e : bitlen b.val + s = bitlen a.val := by omega
      rw [← Nat.pow_add, e]
    have hba : (2:Nat) ^ bitlen a.val ≤ 2 ^ 128 := Nat.pow_le_pow_right (by omega) hfa3
    have hnowrap : b.val * 2 ^ s < 2 ^ 128 := by
      obtain ⟨_, ub⟩ := bitlen_spec b.val (by omega)
      have hx : b.val * 2 ^ s < 2 ^ bitlen b.val * 2 ^ s :=
        (Nat.mul_lt_mul_right (Nat.pos_pow_of_pos _ (by omega))).mpr ub
      omega
    have hdv : (b.shl s).val = b.val * 2 ^ s := by
      rw [hshl.2]
      exact Nat.mod_eq_of_lt hnowrap
    have hbound : ((MakeUint128 0 0).val + 1) * 2 ^ (s + 1) ≤ 2 ^ 128 := by
      rw [hq0v]
      have hp : (2:Nat) ^ (s + 1) ≤ 2 ^ 128 := Nat.pow_le_pow_right (by omega) (by omega)
      omega
    have href := uint128_t.divLoop_refines (s + 1) a (b.shl s) (MakeUint128 0 0)
      ha hshl.1 hq0 hbound
    rw [hdv, hq0v] at href
    have hlt2 : a.val < b.val * 2 ^ (s + 1) := by
      obtain ⟨lb, _⟩ := bitlen_spec b.val (by omega)
      obtain ⟨_, ua⟩ := bitlen_spec a.val (by omega)
      have e : 2 ^ (bitlen b.val - 1) * 2 ^ (s + 1) = 2 ^ bitlen a.val := by
        have e2 : bitlen b.val - 1 + (s + 1) = bitlen a.val := by omega
        rw [← Nat.pow_add, e2]
      have h3 : 2 ^ (bitlen b.val - 1) * 2 ^ (s + 1) ≤ b.val * 2 ^ (s + 1) :=
        Nat.mul_le_mul_right _ lb
      omega
    have hcor := divLoopNat_correct s b.val 0 a.val (by omega) hlt2
    rw [hcor] at href
    dsimp only at href
    simp only [Nat.zero_mul, Nat.zero_add] at href
    exact href

/-!
## Correctness of the formatter
-/
theorem mk_append (l1 l2 : List Char) : (⟨l1⟩ : String) ++ ⟨l2⟩ = ⟨l1 ++ l2⟩ := rfl

theorem digitChar_zero (upper : Bool) : digitChar upper 0 = '0' := by
  cases upper <;> rfl

theorem digitsLEAux_congr2 (base : Nat) (hb : 2 ≤ base) (upper : Bool) :
    ∀ f1 f2 n, n < f1 → n < f2 → digitsLEAux base upper f1 n = digitsLEAux base upper f2 n := by
  intro f1
  induction f1 with
  | zero =>
    intro f2 n h1 _
    omega
  | succ f ih =>
    intro f2 n h1 h2
    obtain ⟨g, rfl⟩ : ∃ g, f2 = g + 1 := ⟨f2 - 1, by omega⟩
    simp only [digitsLEAux]
    split_ifs with hn
    · rfl
    · push_neg at hn
      have hlt : n / base < n := Nat.div_lt_self (by omega) (by omega)
      rw [ih g (n / base) (by omega) (by omega)]

theorem digitsLE_lt (base : Nat) (upper : Bool) (n : Nat) (h : n < base) :
    digitsLE base upper n = [digitChar upper n] := by
  simp only [digitsLE, digitsLEAux]
  rw [if_pos h]

theorem digitsLE_ge (base : Nat) (hb : 2 ≤ base) (upper : Bool) (n : Nat) (h : base ≤ n) :
    digitsLE base upper n = digitChar upper (n % base) :: digitsLE base upper (n / base) := by
  simp only [digitsLE, digitsLEAux]
  rw [if_neg (by omega)]
  congr 1
  exact digitsLEAux_congr2 base hb upper n (n / base + 1) (n / base)
    (Nat.div_lt_self (by omega) (by omega)) (by omega)

theorem chunkLE_succ (base : Nat) (upper : Bool) (w n : Nat) :
    chunkLE base upper (w + 1) n = digitChar upper (n % base) :: chunkLE base upper w (n / base) :=
  rfl

theorem chunkLE_eq (base : Nat) (hb : 2 ≤ base) (upper : Bool) :
    ∀ w b, b < base ^ (w + 1) →
      chunkLE base upper (w + 1) b
        = digitsLE base upper b
            ++ List.replicate (w + 1 - (digitsLE base upper b).length) (digitChar upper 0) := by
  intro w
  induction w with
  | zero =>
    intro b hbb
    rw [pow_one] at hbb
    simp only [chunkLE]
    rw [Nat.mod_eq_of_lt hbb, digitsLE_lt base upper b hbb]
    simp
  | succ w ih =>
    intro b hbb
    have hbase : 0 < base := by omega
    by_cases hsm : b < base
    · rw [chunkLE_succ, Nat.mod_eq_of_lt hsm, Nat.div_eq_of_lt hsm,
        digitsLE_lt base upper b hsm, ih 0 (Nat.pos_pow_of_pos _ hbase),
        digitsLE_lt base upper 0 (by omega)]
      simp [List.replicate_succ]
    · push_neg at hsm
      rw [chunkLE_succ, digitsLE_ge base hb upper b hsm,
        ih (b / base) (by rw [Nat.div_lt_iff_lt_mul hbase, ← Nat.pow_succ]; exact hbb)]
      simp only [List.length_cons, List.cons_append]
      have hc : w + 1 + 1 - ((digitsLE base upper (b / base)).length + 1)
          = w + 1 - (digitsLE base upper (b / base)).length := by omega
      rw [hc]

theorem digitsLE_chunk (base : Nat) (hb : 2 ≤ base) (upper : Bool) :
    ∀ w a b, 0 < a → b < base ^ (w + 1) →
      digitsLE base upper (a * base ^ (w + 1) + b)
        = chunkLE base upper (w + 1) b ++ digitsLE base upper a := by
  intro w
  induction w with
  | zero =>
    intro a b ha hbb
    rw [pow_one] at hbb ⊢
    have hmul : base ≤ a * base := Nat.le_mul_of_pos_left base ha
    have hn : base ≤ a * base + b := by omega
    rw [digitsLE_ge base hb upper _ hn]
    have hmod : (a * base + b) % base = b := by
      rw [Nat.mul_add_mod', Nat.mod_eq_of_lt hbb]
    have hdiv : (a * base + b) / base = a := by
      rw [Nat.mul_comm a base, Nat.mul_add_div (by omega), Nat.div_eq_of_lt hbb, Nat.add_zero]
    rw [hmod, hdiv]
    simp only [chunkLE]
    rw [Nat.mod_eq_of_lt hbb]
    simp
  | succ w ih =>
    intro a b ha hbb
    have hbase : 0 < base := by omega
    have hbp : base ≤ base ^ (w + 2) := Nat.le_self_pow (by omega) base
    have hmul : base ^ (w + 2) ≤ a * base ^ (w + 2) := Nat.le_mul_of_pos_left _ ha
    have hn : base ≤ a * base ^ (w + 2) + b := by omega
    rw [digitsLE_ge base hb upper _ hn]
    have hmod : (a * base ^ (w + 2) + b) % base = b % base := by
      have e : a * base ^ (w + 2) = a * base ^ (w + 1) * base := by
        rw [Nat.pow_succ]
        ring
      rw [e, Nat.mul_add_mod']
    have hdiv : (a * base ^ (w + 2) + b) / base = a * base ^ (w + 1) + b / base := by
      have e : a * base ^ (w + 2) = base * (a * base ^ (w + 1)) := by
        rw [Nat.pow_succ]
        ring
      rw [e, Nat.mul_add_div hbase]
    rw [hmod, hdiv,
      ih a (b / base) ha (by rw [Nat.div_lt_iff_lt_mul hbase, ← Nat.pow_succ]; exact hbb)]
    conv_rhs => rw [chunkLE_succ]
    simp [List.cons_append]

theorem natToBaseStr_chunk (base : Nat) (hb : 2 ≤ base) (upper : Bool) (w a b : Nat)
    (hw : 1 ≤ w) (ha : 0 < a) (hbb : b < base ^ w) :
    natToBaseStr base upper (a * base ^ w + b)
      = natToBaseStr base upper a ++ zeroPad w (natToBaseStr base upper b) := by
  obtain ⟨w', rfl⟩ : ∃ w', w = w' + 1 := ⟨w - 1, by omega⟩
  unfold natToBaseStr zeroPad
  rw [digitsLE_chunk base hb upper w' a b ha hbb, chunkLE_eq base hb upper w' b hbb, mk_append]
  apply congrArg
  simp [List.reverse_append, digitChar_zero]

theorem uint128_t.lo_eq_val (u : uint128_t) (hu : u.Wf) (h : u.val < 2 ^ 64) :
    Uint128Low64 u = u.val := by
  obtain ⟨lo, hi⟩ := u
  simp only [uint128_t.Wf, uint128_t.lo_mk, uint128_t.hi_mk] at hu
  simp only [Uint128Low64, uint128_t.val, uint128_t.lo_mk, uint128_t.hi_mk] at h ⊢
  omega

theorem uint128_t.formatChunks_spec (d w bse : Nat) (upper : Bool) (v : uint128_t)
    (hb : 2 ≤ bse) (hw : 1 ≤ w) (hd : d = bse ^ w) (hd64 : d < 2 ^ 64)
    (hcube : (2:Nat) ^ 128 ≤ d * d * d) (hv : v.Wf) :
    uint128_t.formatChunks d w bse upper v = natToBaseStr bse upper v.val := by
  have hdpos : 0 < d := by
    rw [hd]
    exact Nat.pos_pow_of_pos _ (by omega)
  have hwfd : (MakeUint128 0 d).Wf := by
    constructor <;> simp [MakeUint128] <;> omega
  have hdval : (MakeUint128 0 d).val = d := by
    simp [MakeUint128, uint128_t.val]
  have h1 := uint128_t.DivMod_spec v (MakeUint128 0 d) hv hwfd (by rw [hdval]; omega)
  rw [hdval] at h1
  have h2 := uint128_t.DivMod_spec (uint128_t.DivMod v (MakeUint128 0 d)).1 (MakeUint128 0 d)
    h1.1.1 hwfd (by rw [hdval]; omega)
  rw [hdval] at h2
  have hvlt := uint128_t.val_lt v hv
  have hlowv : (uint128_t.DivMod v (MakeUint128 0 d)).2.val = v.val % d := h1.2.2
  have hmidv : (uint128_t.DivMod (uint128_t.DivMod v (MakeUint128 0 d)).1
      (MakeUint128 0 d)).2.val = v.val / d % d := by
    rw [h2.2.2, h1.2.1]
  have hhighv : (uint128_t.DivMod (uint128_t.DivMod v (MakeUint128 0 d)).1
      (MakeUint128 0 d)).1.val = v.val / d / d := by
    rw [h2.2.1, h1.2.1]
  have hhighlt : v.val / d / d < d := by
    rw [Nat.div_div_eq_div_mul, Nat.div_lt_iff_lt_mul (by positivity)]
    have : d * (d * d) = d * d * d := by ring
    omega
  simp only [uint128_t.formatChunks]
  rw [uint128_t.lo_eq_val _ h2.1.1 (by rw [hhighv]; omega),
    uint128_t.lo_eq_val _ h2.1.2 (by rw [hmidv]; exact Nat.lt_of_lt_of_le (Nat.mod_lt _ (by omega)) (by omega)),
    uint128_t.lo_eq_val _ h1.1.2 (by rw [hlowv]; exact Nat.lt_of_lt_of_le (Nat.mod_lt _ (by omega)) (by omega)),
    hlowv, hmidv, hhighv]
  subst hd
  split_ifs with hc1 hc2
  · -- three chunks
    have hXpos : 0 < v.val / bse ^ w := by
      have : 0 < v.val / bse ^ w / bse ^ w := by omega
      by_contra hc
      push_neg at hc
      interval_cases hx : v.val / bse ^ w
      simp at this
    conv_rhs => rw [← Nat.div_add_mod' v.val (bse ^ w)]
    rw [natToBaseStr_chunk bse hb upper w _ _ hw hXpos (Nat.mod_lt _ (by omega))]
    conv_rhs => rw [← Nat.div_add_mod' (v.val / bse ^ w) (bse ^ w)]
    rw [natToBaseStr_chunk bse hb upper w _ _ hw (by omega) (Nat.mod_lt _ (by omega))]
  · -- two chunks
    have hXlt : v.val / bse ^ w < bse ^ w := by
      by_contra hc
      push_neg at hc
      have h1' : 1 ≤ v.val / bse ^ w / bse ^ w :=
        (Nat.one_le_div_iff (by omega)).mpr hc
      omega
    have hXpos : 0 < v.val / bse ^ w := by
      rw [Nat.mod_eq_of_lt hXlt] at hc2
      omega
    rw [Nat.mod_eq_of_lt hXlt]
    conv_rhs => rw [← Nat.div_add_mod' v.val (bse ^ w)]
    rw [natToBaseStr_chunk bse hb upper w _ _ hw hXpos (Nat.mod_lt _ (by omega))]
  · -- one chunk
    push_neg at hc1 hc2
    have hXlt : v.val / bse ^ w < bse ^ w := by
      by_contra hc
      push_neg at hc
      have h1' : 1 ≤ v.val / bse ^ w / bse ^ w :=
        (Nat.one_le_div_iff (by omega)).mpr hc
      omega
    rw [Nat.mod_eq_of_lt hXlt] at hc2
    have hvsmall : v.val < bse ^ w := by
      by_contra hc
      push_neg at hc
      have h1' : 1 ≤ v.val / bse ^ w := (Nat.one_le_div_iff (by omega)).mpr hc
      omega
    rw [Nat.mod_eq_of_lt hvsmall]

theorem uint128_t.ToFormattedString_spec (v : uint128_t) (base : FmtBase) (upper : Bool)
    (hv : v.Wf) :
    uint128_t.ToFormattedString v base upper = natToBaseStr base.radix upper v.val := by
  cases base
  · exact uint128_t.formatChunks_spec _ 21 8 upper v (by norm_num) (by norm_num)
      (by norm_num) (by norm_num) (by norm_num) hv
  · exact uint128_t.formatChunks_spec _ 19 10 upper v (by norm_num) (by norm_num)
      (by norm_num) (by norm_num) (by norm_num) hv
  · exact uint128_t.formatChunks_spec _ 15 16 upper v (by norm_num) (by norm_num)
      (by norm_num) (by norm_num) (by norm_num) hv

@[simp] theorem int128_t.mk_lo (l : Nat) (h : Int) : (int128_t.mk l h).lo = l := rfl

@[simp] theorem int128_t.mk_hi (l : Nat) (h : Int) : (int128_t.mk l h).hi = h := rfl

/-!
## Value semantics of the signed operations
-/
theorem int128_t.hi_neg_iff (v : int128_t) (hv : v.Wf) : v.hi < 0 ↔ v.val < 0 := by
  obtain ⟨lo, hi⟩ := v
  simp only [int128_t.Wf, int128_t.mk_lo, int128_t.mk_hi] at hv
  simp only [int128_t.val, int128_t.mk_lo, int128_t.mk_hi]
  omega

theorem int128_t.val_bounds (v : int128_t) (hv : v.Wf) :
    -(2 ^ 127) ≤ v.val ∧ v.val < 2 ^ 127 := by
  obtain ⟨lo, hi⟩ := v
  simp only [int128_t.Wf, int128_t.mk_lo, int128_t.mk_hi] at hv
  simp only [int128_t.val, int128_t.mk_lo, int128_t.mk_hi]
  omega

theorem int128_t.val_injective {a b : int128_t} (ha : a.Wf) (hb : b.Wf) (h : a.val = b.val) :
    a = b := by
  obtain ⟨al, ah⟩ := a
  obtain ⟨bl, bh⟩ := b
  simp only [int128_t.Wf, int128_t.mk_lo, int128_t.mk_hi] at ha hb
  simp only [int128_t.val, int128_t.mk_lo, int128_t.mk_hi] at h
  simp only [int128_t.mk.injEq]
  constructor <;> omega

theorem uint128_t.ofInt128_spec (v : int128_t) (hv : v.Wf) :
    (uint128_t.ofInt128 v).Wf ∧ ((uint128_t.ofInt128 v).val : Int) = v.val % (2 ^ 128 : Int) := by
  obtain ⟨lo, hi⟩ := v
  simp only [int128_t.Wf, int128_t.mk_lo, int128_t.mk_hi] at hv
  simp only [uint128_t.ofInt128, Int128Low64, Int128High64, int128_t.mk_lo, int128_t.mk_hi,
    uint128_t.Wf, uint128_t.val, uint128_t.lo_mk, uint128_t.hi_mk, int128_t.val]
  refine ⟨⟨by omega, by omega⟩, ?_⟩
  push_cast
  omega

theorem UnsignedAbsoluteValue_spec (v : int128_t) (hv : v.Wf) :
    (UnsignedAbsoluteValue v).Wf ∧ (UnsignedAbsoluteValue v).val = v.val.natAbs := by
  have hof := uint128_t.ofInt128_spec v hv
  have hbd := int128_t.val_bounds v hv
  unfold UnsignedAbsoluteValue
  rw [Int128High64]
  split_ifs with h
  · have hneg := (int128_t.hi_neg_iff v hv).mp h
    have hns := uint128_t.neg_spec _ hof.1
    refine ⟨hns.1, ?_⟩
    rw [hns.2]
    omega
  · have hpos : ¬ v.val < 0 := fun hc => h ((int128_t.hi_neg_iff v hv).mpr hc)
    refine ⟨hof.1, ?_⟩
    omega

theorem int128_t.reinterpret_spec (q : uint128_t) (hq : q.Wf) :
    (MakeInt128 (int128_t_internal.BitCastToSigned (Uint128High64 q)) (Uint128Low64 q)).Wf ∧
    (MakeInt128 (int128_t_internal.BitCastToSigned (Uint128High64 q)) (Uint128Low64 q)).val
      = if (q.val : Int) < 2 ^ 127 then (q.val : Int) else (q.val : Int) - 2 ^ 128 := by
  obtain ⟨lo, hi⟩ := q
  simp only [uint128_t.Wf, uint128_t.lo_mk, uint128_t.hi_mk] at hq
  simp only [MakeInt128, int128_t_internal.BitCastToSigned, Uint128High64, Uint128Low64,
    uint128_t.lo_mk, uint128_t.hi_mk, int128_t.Wf, int128_t.val, int128_t.mk_lo,
    int128_t.mk_hi, uint128_t.val]
  split_ifs with h1 h2 h3 <;> refine ⟨⟨by omega, by omega, by omega⟩, ?_⟩ <;> push_cast <;> omega

/-- Reinterpreting a small unsigned value as signed is the identity. -/
theorem int128_t.reinterpret_pos (u : uint128_t) (hu : u.Wf) (hlt : u.val < 2 ^ 127) :
    (MakeInt128 (int128_t_internal.BitCastToSigned (Uint128High64 u)) (Uint128Low64 u)).Wf ∧
    (MakeInt128 (int128_t_internal.BitCastToSigned (Uint128High64 u)) (Uint128Low64 u)).val
      = (u.val : Int) := by
  have hri := int128_t.reinterpret_spec u hu
  refine ⟨hri.1, ?_⟩
  rw [hri.2, if_pos (by exact_mod_cast hlt)]

/-- Reinterpreting the unsigned negation of a value of magnitude at most
`2^127` yields its integer negation. -/
theorem int128_t.reinterpret_neg (u : uint128_t) (hu : u.Wf) (hle : u.val ≤ 2 ^ 127) :
    (MakeInt128 (int128_t_internal.BitCastToSigned (Uint128High64 u.neg))
      (Uint128Low64 u.neg)).Wf ∧
    (MakeInt128 (int128_t_internal.BitCastToSigned (Uint128High64 u.neg))
      (Uint128Low64 u.neg)).val = -(u.val : Int) := by
  have hn := uint128_t.neg_spec u hu
  have hri := int128_t.reinterpret_spec u.neg hn.1
  have hvlt := uint128_t.val_lt u hu
  refine ⟨hri.1, ?_⟩
  rw [hri.2, hn.2]
  split_ifs with h <;> push_cast at h ⊢ <;> omega

theorem int128_t.ofWrapped_spec (x : Int) (h1 : -(2 ^ 127) ≤ x) (h2 : x < 2 ^ 127) :
    (int128_t.ofWrapped x).Wf ∧ (int128_t.ofWrapped x).val = x := by
  unfold int128_t.ofWrapped MakeInt128 int128_t_internal.BitCastToSigned
  simp only [int128_t.Wf, int128_t.val, int128_t.mk_lo, int128_t.mk_hi]
  split_ifs with h <;> refine ⟨⟨by omega, by omega, by omega⟩, ?_⟩ <;> push_cast <;> omega

/-- Functional correctness of `int128_t::DivMod`: truncating division.  The
quotient is the magnitude quotient with the xor of the signs, the remainder
carries the dividend's sign. -/
theorem int128_t.DivMod_signed_spec (a b : int128_t) (ha : a.Wf) (hb : b.Wf) (hbne : b.val ≠ 0)
    (hmin : ¬(a.val = -(2 ^ 127) ∧ b.val = -1)) :
    ((int128_t.DivMod a b).1.Wf ∧ (int128_t.DivMod a b).2.Wf) ∧
    (int128_t.DivMod a b).1.val
      = (if (a.val < 0) ↔ (b.val < 0) then ((a.val.natAbs / b.val.natAbs : Nat) : Int)
         else -((a.val.natAbs / b.val.natAbs : Nat) : Int)) ∧
    (int128_t.DivMod a b).2.val
      = (if a.val < 0 then -((a.val.natAbs % b.val.natAbs : Nat) : Int)
         else ((a.val.natAbs % b.val.natAbs : Nat) : Int)) := by
  have hua := UnsignedAbsoluteValue_spec a ha
  have hub := UnsignedAbsoluteValue_spec b hb
  have hbabs : b.val.natAbs ≠ 0 := by omega
  have hudm := uint128_t.DivMod_spec (UnsignedAbsoluteValue a) (UnsignedAbsoluteValue b)
    hua.1 hub.1 (by rw [hub.2]; exact hbabs)
  rw [hua.2, hub.2] at hudm
  have hab := int128_t.val_bounds a ha
  have hbb := int128_t.val_bounds b hb
  have hna : a.val.natAbs ≤ 2 ^ 127 := by omega
  have hnb : b.val.natAbs ≤ 2 ^ 127 := by omega
  have hq0le : a.val.natAbs / b.val.natAbs ≤ a.val.natAbs := Nat.div_le_self _ _
  have hr0lt : a.val.natAbs % b.val.natAbs < b.val.natAbs := Nat.mod_lt _ (by omega)
  have hq0cases : a.val.natAbs / b.val.natAbs < 2 ^ 127
      ∨ (a.val.natAbs / b.val.natAbs = 2 ^ 127 ∧ a.val = -(2 ^ 127)
          ∧ (b.val = 1 ∨ b.val = -1)) := by
    rcases Nat.lt_or_ge (a.val.natAbs / b.val.natAbs) (2 ^ 127) with h | h
    · exact Or.inl h
    · right
      have hqm : a.val.natAbs / b.val.natAbs * b.val.natAbs ≤ a.val.natAbs :=
        Nat.div_mul_le_self _ _
      have hb1 : b.val.natAbs = 1 := by
        by_contra hc
        have h2b : 2 ≤ b.val.natAbs := by omega
        have hx : 2 ^ 127 * 2 ≤ a.val.natAbs / b.val.natAbs * b.val.natAbs := by
          calc 2 ^ 127 * 2 ≤ a.val.natAbs / b.val.natAbs * 2 :=
            Nat.mul_le_mul_right _ h
          _ ≤ a.val.natAbs / b.val.natAbs * b.val.natAbs :=
            Nat.mul_le_mul_left _ h2b
        omega
      have he : a.val.natAbs / b.val.natAbs = a.val.natAbs := by
        rw [hb1, Nat.div_one]
      refine ⟨by omega, by omega, by omega⟩
  have hr0le : a.val.natAbs % b.val.natAbs < 2 ^ 127 := by omega
  unfold int128_t.DivMod
  simp only [Int128High64]
  by_cases hsa : a.hi < 0 <;> by_cases hsb : b.hi < 0 <;>
    simp only [hsa, hsb, decide_True, decide_False, ne_eq, not_true_eq_false,
      not_false_eq_true, if_true, if_false, ite_true, ite_false, Bool.true_eq_false,
      Bool.false_eq_true]
  · -- both negative: signs equal, dividend negative
    have hva := (int128_t.hi_neg_iff a ha).mp hsa
    have hvb := (int128_t.hi_neg_iff b hb).mp hsb
    have hq0lt : a.val.natAbs / b.val.natAbs < 2 ^ 127 := by
      rcases hq0cases with h | ⟨h1, h2, h3 | h3⟩
      · exact h
      · omega
      · exact absurd ⟨h2, h3⟩ hmin
    have hqq := int128_t.reinterpret_pos (uint128_t.DivMod (UnsignedAbsoluteValue a)
      (UnsignedAbsoluteValue b)).1 hudm.1.1 (by omega)
    have hrr := int128_t.reinterpret_neg (uint128_t.DivMod (UnsignedAbsoluteValue a)
      (UnsignedAbsoluteValue b)).2 hudm.1.2 (by omega)
    refine ⟨⟨hqq.1, hrr.1⟩, ?_, ?_⟩
    · rw [hqq.2, hudm.2.1, if_pos (by omega)]
    · rw [hrr.2, hudm.2.2, if_pos hva]
  · -- dividend negative, divisor nonnegative: signs differ
    have hva := (int128_t.hi_neg_iff a ha).mp hsa
    have hvb : ¬ b.val < 0 := fun hc => hsb ((int128_t.hi_neg_iff b hb).mpr hc)
    have hqq := int128_t.reinterpret_neg (uint128_t.DivMod (UnsignedAbsoluteValue a)
      (UnsignedAbsoluteValue b)).1 hudm.1.1 (by omega)
    have hrr := int128_t.reinterpret_neg (uint128_t.DivMod (UnsignedAbsoluteValue a)
      (UnsignedAbsoluteValue b)).2 hudm.1.2 (by omega)
    refine ⟨⟨hqq.1, hrr.1⟩, ?_, ?_⟩
    · rw [hqq.2, hudm.2.1, if_neg (by omega)]
    · rw [hrr.2, hudm.2.2, if_pos hva]
  · -- dividend nonnegative, divisor negative: signs differ
    have hva : ¬ a.val < 0 := fun hc => hsa ((int128_t.hi_neg_iff a ha).mpr hc)
    have hvb := (int128_t.hi_neg_iff b hb).mp hsb
    have hqq := int128_t.reinterpret_neg (uint128_t.DivMod (UnsignedAbsoluteValue a)
      (UnsignedAbsoluteValue b)).1 hudm.1.1 (by omega)
    have hrr := int128_t.reinterpret_pos (uint128_t.DivMod (UnsignedAbsoluteValue a)
      (UnsignedAbsoluteValue b)).2 hudm.1.2 (by omega)
    refine ⟨⟨hqq.1, hrr.1⟩, ?_, ?_⟩
    · rw [hqq.2, hudm.2.1, if_neg (by omega)]
    · rw [hrr.2, hudm.2.2, if_neg hva]
  · -- both nonnegative: signs equal, dividend nonnegative
    have hva : ¬ a.val < 0 := fun hc => hsa ((int128_t.hi_neg_iff a ha).mpr hc)
    have hvb : ¬ b.val < 0 := fun hc => hsb ((int128_t.hi_neg_iff b hb).mpr hc)
    have hq0lt : a.val.natAbs / b.val.natAbs < 2 ^ 127 := by
      rcases hq0cases with h | ⟨h1, h2, h3⟩
      · exact h
      · omega
    have hqq := int128_t.reinterpret_pos (uint128_t.DivMod (UnsignedAbsoluteValue a)
      (UnsignedAbsoluteValue b)).1 hudm.1.1 (by omega)
    have hrr := int128_t.reinterpret_pos (uint128_t.DivMod (UnsignedAbsoluteValue a)
      (UnsignedAbsoluteValue b)).2 hudm.1.2 (by omega)
    refine ⟨⟨hqq.1, hrr.1⟩, ?_, ?_⟩
    · rw [hqq.2, hudm.2.1, if_pos (by omega)]
    · rw [hrr.2, hudm.2.2, if_neg hva]

/-!
## The claims
-/
/-- C1: for every pair of uint128_t values `a`, `b` with `b ≠ 0`, `DivMod`
produces the true quotient `⌊a/b⌋` and remainder `a mod b`; the operators
satisfy `(a / b) * b + (a % b) == a` exactly with `a % b < b`; and the
early cases give quotient 0 / remainder `a` when `b > a`, and quotient 1 /
remainder 0 when `b == a`. -/
theorem claim_C1 (a b : uint128_t) (ha : a.Wf) (hb : b.Wf) (hne : b.val ≠ 0) :
    (uint128_t.DivMod a b).1.val = a.val / b.val
    ∧ (uint128_t.DivMod a b).2.val = a.val % b.val
    ∧ uint128_t.beq (((a.div b).mul b).add (a.mod b)) a = true
    ∧ uint128_t.lt (a.mod b) b = true
    ∧ (uint128_t.gt b a = true → uint128_t.DivMod a b = (MakeUint128 0 0, a))
    ∧ (uint128_t.beq b a = true → uint128_t.DivMod a b = (MakeUint128 0 1, MakeUint128 0 0)) := by
  have hdm := uint128_t.DivMod_spec a b ha hb hne
  have hqwf : (a.div b).Wf := hdm.1.1
  have hmwf : (a.mod b).Wf := hdm.1.2
  have hqv : (a.div b).val = a.val / b.val := hdm.2.1
  have hmv : (a.mod b).val = a.val % b.val := hdm.2.2
  have hva := uint128_t.val_lt a ha
  have hmul := uint128_t.mul_spec (a.div b) b hqwf hb
  have hmulv : ((a.div b).mul b).val = a.val / b.val * b.val := by
    rw [hmul.2, hqv]
    apply Nat.mod_eq_of_lt
    have := Nat.div_mul_le_self a.val b.val
    omega
  have hadd := uint128_t.add_spec ((a.div b).mul b) (a.mod b) hmul.1 hmwf
  have haddv : (((a.div b).mul b).add (a.mod b)).val = a.val := by
    rw [hadd.2, hmulv, hmv]
    have hdam := Nat.div_add_mod a.val b.val
    have e : a.val / b.val * b.val + a.val % b.val = a.val := by
      rw [Nat.mul_comm]
      omega
    rw [e, Nat.mod_eq_of_lt hva]
  refine ⟨hqv, hmv, ?_, ?_, ?_, ?_⟩
  · rw [uint128_t.beq_iff hadd.1 ha, haddv]
  · rw [uint128_t.lt_iff hmwf hb, hmv]
    exact Nat.mod_lt _ (by omega)
  · intro h
    simp [uint128_t.DivMod, h]
  · intro h
    have hgf : uint128_t.gt b a = false := by
      rcases Bool.eq_false_or_eq_true (uint128_t.gt b a) with hg | hg
      · exfalso
        have h1 := (uint128_t.gt_iff hb ha).mp hg
        have h2 := (uint128_t.beq_iff hb ha).mp h
        omega
      · exact hg
    simp [uint128_t.DivMod, hgf, h]

theorem claim_C1_witness :
    (uint128_t.DivMod (MakeUint128 0 7) (MakeUint128 0 2)).1.val
        = (MakeUint128 0 7).val / (MakeUint128 0 2).val
    ∧ (uint128_t.DivMod (MakeUint128 0 7) (MakeUint128 0 2)).2.val
        = (MakeUint128 0 7).val % (MakeUint128 0 2).val
    ∧ uint128_t.beq ((((MakeUint128 0 7).div (MakeUint128 0 2)).mul (MakeUint128 0 2)).add
        ((MakeUint128 0 7).mod (MakeUint128 0 2))) (MakeUint128 0 7) = true
    ∧ uint128_t.lt ((MakeUint128 0 7).mod (MakeUint128 0 2)) (MakeUint128 0 2) = true
    ∧ (uint128_t.gt (MakeUint128 0 2) (MakeUint128 0 7) = true →
        uint128_t.DivMod (MakeUint128 0 7) (MakeUint128 0 2)
          = (MakeUint128 0 0, MakeUint128 0 7))
    ∧ (uint128_t.beq (MakeUint128 0 2) (MakeUint128 0 7) = true →
        uint128_t.DivMod (MakeUint128 0 7) (MakeUint128 0 2)
          = (MakeUint128 0 1, MakeUint128 0 0)) :=
  claim_C1 (MakeUint128 0 7) (MakeUint128 0 2) (by decide) (by decide) (by decide)

/-- C2: for int128_t values `a`, `b` with `b ≠ 0` and not
(`a = Int128Min` and `b = -1`), signed division truncates toward zero: the
quotient's sign is the xor of the operands' signs, the remainder's sign is
the dividend's, and `(a / b) * b + (a % b) == a` holds exactly (the signed
`operator*`/`operator+` are spec-modelled wraparound). -/
theorem claim_C2 (a b : int128_t) (ha : a.Wf) (hb : b.Wf) (hne : b.val ≠ 0)
    (hmin : ¬(a.val = -(2 ^ 127) ∧ b.val = -1)) :
    int128_t.add (int128_t.mul (a.div b) b) (a.mod b) = a
    ∧ (a.div b).val * b.val + (a.mod b).val = a.val
    ∧ (((a.val < 0) ↔ (b.val < 0)) → 0 ≤ (a.div b).val)
    ∧ (¬((a.val < 0) ↔ (b.val < 0)) → (a.div b).val ≤ 0)
    ∧ (0 ≤ a.val → 0 ≤ (a.mod b).val)
    ∧ (a.val < 0 → (a.mod b).val ≤ 0) := by
  have hdm := int128_t.DivMod_signed_spec a b ha hb hne hmin
  have hqwf : (a.div b).Wf := hdm.1.1
  have hmwf : (a.mod b).Wf := hdm.1.2
  have hqv : (a.div b).val
      = if (a.val < 0) ↔ (b.val < 0)
        then ((a.val.natAbs / b.val.natAbs : Nat) : Int)
        else -((a.val.natAbs / b.val.natAbs : Nat) : Int) := hdm.2.1
  have hmv : (a.mod b).val
      = if a.val < 0
        then -((a.val.natAbs % b.val.natAbs : Nat) : Int)
        else ((a.val.natAbs % b.val.natAbs : Nat) : Int) := hdm.2.2
  have hab := int128_t.val_bounds a ha
  have hbb := int128_t.val_bounds b hb
  have hcast : ((a.val.natAbs : Int))
      = (b.val.natAbs : Int) * ((a.val.natAbs / b.val.natAbs : Nat) : Int)
        + ((a.val.natAbs % b.val.natAbs : Nat) : Int) := by
    exact_mod_cast (Nat.div_add_mod a.val.natAbs b.val.natAbs).symm
  have hrlt : a.val.natAbs % b.val.natAbs < b.val.natAbs := Nat.mod_lt _ (by omega)
  have hvid : (a.div b).val * b.val + (a.mod b).val = a.val := by
    by_cases hca : a.val < 0 <;> by_cases hcb : b.val < 0
    · rw [hqv, hmv, if_pos (by omega), if_pos hca]
      have hae : a.val = -(a.val.natAbs : Int) := by omega
      have hbe : b.val = -(b.val.natAbs : Int) := by omega
      linear_combination (-1 : Int) * hae
        + ((a.val.natAbs / b.val.natAbs : Nat) : Int) * hbe + hcast
    · rw [hqv, hmv, if_neg (by omega), if_pos hca]
      have hae : a.val = -(a.val.natAbs : Int) := by omega
      have hbe : b.val = (b.val.natAbs : Int) := by omega
      linear_combination (-1 : Int) * hae
        - ((a.val.natAbs / b.val.natAbs : Nat) : Int) * hbe + hcast
    · rw [hqv, hmv, if_neg (by omega), if_neg hca]
      have hae : a.val = (a.val.natAbs : Int) := by omega
      have hbe : b.val = -(b.val.natAbs : Int) := by omega
      linear_combination (-1 : Int) * hae
        - ((a.val.natAbs / b.val.natAbs : Nat) : Int) * hbe - hcast
    · rw [hqv, hmv, if_pos (by omega), if_neg hca]
      have hae : a.val = (a.val.natAbs : Int) := by omega
      have hbe : b.val = (b.val.natAbs : Int) := by omega
      linear_combination (-1 : Int) * hae
        + ((a.val.natAbs / b.val.natAbs : Nat) : Int) * hbe - hcast
  have hqb := int128_t.val_bounds _ hqwf
  have hmb := int128_t.val_bounds _ hmwf
  have hrsign : (0 ≤ a.val → 0 ≤ (a.mod b).val) ∧ (a.val < 0 → (a.mod b).val ≤ 0) := by
    constructor <;> intro h <;> rw [hmv]
    · rw [if_neg (by omega)]
      positivity
    · rw [if_pos h]
      omega
  have hprod : -(2 ^ 127) ≤ (a.div b).val * b.val ∧ (a.div b).val * b.val < 2 ^ 127 := by
    have he : (a.div b).val * b.val = a.val - (a.mod b).val := by omega
    have hmle : a.val.natAbs % b.val.natAbs ≤ a.val.natAbs := Nat.mod_le _ _
    rcases Int.lt_or_le a.val 0 with hc | hc
    · have h1 := hrsign.2 hc
      have h2 : a.val ≤ (a.mod b).val := by
        rw [hmv, if_pos hc]
        omega
      omega
    · have h1 := hrsign.1 hc
      have h2 : (a.mod b).val ≤ a.val := by
        rw [hmv, if_neg (by omega)]
        omega
      omega
  refine ⟨?_, hvid, ?_, ?_, hrsign.1, hrsign.2⟩
  · have hmm : int128_t.mul (a.div b) b = int128_t.ofWrapped ((a.div b).val * b.val) := rfl
    have hmw := int128_t.ofWrapped_spec ((a.div b).val * b.val) hprod.1 hprod.2
    have haa : int128_t.add (int128_t.mul (a.div b) b) (a.mod b)
        = int128_t.ofWrapped ((int128_t.mul (a.div b) b).val + (a.mod b).val) := rfl
    rw [haa, hmm, hmw.2, hvid]
    have haw := int128_t.ofWrapped_spec a.val hab.1 hab.2
    exact int128_t.val_injective haw.1 ha haw.2
  · intro h
    rw [hqv, if_pos h]
    positivity
  · intro h
    rw [hqv, if_neg h]
    exact neg_nonpos.mpr (Int.ofNat_nonneg _)

theorem claim_C2_witness :
    int128_t.add (int128_t.mul ((MakeInt128 (-1) (2 ^ 64 - 7)).div (MakeInt128 0 2))
        (MakeInt128 0 2)) ((MakeInt128 (-1) (2 ^ 64 - 7)).mod (MakeInt128 0 2))
      = MakeInt128 (-1) (2 ^ 64 - 7)
    ∧ ((MakeInt128 (-1) (2 ^ 64 - 7)).div (MakeInt128 0 2)).val * (MakeInt128 0 2).val
        + ((MakeInt128 (-1) (2 ^ 64 - 7)).mod (MakeInt128 0 2)).val
      = (MakeInt128 (-1) (2 ^ 64 - 7)).val
    ∧ ((((MakeInt128 (-1) (2 ^ 64 - 7)).val < 0) ↔ ((MakeInt128 0 2).val < 0)) →
        0 ≤ ((MakeInt128 (-1) (2 ^ 64 - 7)).div (MakeInt128 0 2)).val)
    ∧ (¬(((MakeInt128 (-1) (2 ^ 64 - 7)).val < 0) ↔ ((MakeInt128 0 2).val < 0)) →
        ((MakeInt128 (-1) (2 ^ 64 - 7)).div (MakeInt128 0 2)).val ≤ 0)
    ∧ (0 ≤ (MakeInt128 (-1) (2 ^ 64 - 7)).val →
        0 ≤ ((MakeInt128 (-1) (2 ^ 64 - 7)).mod (MakeInt128 0 2)).val)
    ∧ ((MakeInt128 (-1) (2 ^ 64 - 7)).val < 0 →
        ((MakeInt128 (-1) (2 ^ 64 - 7)).mod (MakeInt128 0 2)).val ≤ 0) :=
  claim_C2 (MakeInt128 (-1) (2 ^ 64 - 7)) (MakeInt128 0 2) (by decide) (by decide)
    (by decide) (by decide)

/-- C3: `+`, `-`, `*` on uint128_t return the exact mathematical result
reduced modulo `2^128` (silent wraparound), and, being total functions on
well-formed values, never signal an error. -/
theorem claim_C3 (a b : uint128_t) (ha : a.Wf) (hb : b.Wf) :
    ((a.add b).Wf ∧ (a.add b).val = (a.val + b.val) % 2 ^ 128)
    ∧ ((a.sub b).Wf ∧ ((a.sub b).val : Int) = ((a.val : Int) - b.val) % (2 ^ 128 : Int))
    ∧ ((a.mul b).Wf ∧ (a.mul b).val = a.val * b.val % 2 ^ 128) := by
  refine ⟨uint128_t.add_spec a b ha hb, ⟨(uint128_t.sub_spec a b ha hb).1, ?_⟩,
    uint128_t.mul_spec a b ha hb⟩
  have h := (uint128_t.sub_spec a b ha hb).2
  have hva := uint128_t.val_lt a ha
  have hvb := uint128_t.val_lt b hb
  omega

theorem claim_C3_witness :
    (((MakeUint128 1 2).add (MakeUint128 3 4)).Wf
      ∧ ((MakeUint128 1 2).add (MakeUint128 3 4)).val
          = ((MakeUint128 1 2).val + (MakeUint128 3 4).val) % 2 ^ 128)
    ∧ (((MakeUint128 1 2).sub (MakeUint128 3 4)).Wf
      ∧ ((((MakeUint128 1 2).sub (MakeUint128 3 4)).val : Int)
          = (((MakeUint128 1 2).val : Int) - (MakeUint128 3 4).val) % (2 ^ 128 : Int)))
    ∧ (((MakeUint128 1 2).mul (MakeUint128 3 4)).Wf
      ∧ ((MakeUint128 1 2).mul (MakeUint128 3 4)).val
          = (MakeUint128 1 2).val * (MakeUint128 3 4).val % 2 ^ 128) :=
  claim_C3 (MakeUint128 1 2) (MakeUint128 3 4) (by decide) (by decide)

/-- C4: for `64 ≤ k < 128`, `v << k` has high limb `lo << (k-64)` and low
limb 0, and `v >> k` has low limb `hi >> (k-64)` and high limb 0; for every
`k < 128`, `v << k` equals `val v * 2^k mod 2^128` and `v >> k` equals
`⌊val v / 2^k⌋`. -/
theorem claim_C4 (v : uint128_t) (k : Nat) (hv : v.Wf) :
    (64 ≤ k → k < 128 →
      (v.shl k).hi = v.lo * 2 ^ (k - 64) % 2 ^ 64 ∧ (v.shl k).lo = 0
      ∧ (v.shr k).lo = v.hi / 2 ^ (k - 64) ∧ (v.shr k).hi = 0)
    ∧ (k < 128 →
      (v.shl k).val = v.val * 2 ^ k % 2 ^ 128 ∧ (v.shr k).val = v.val / 2 ^ k) := by
  constructor
  · intro h64 h128
    have hn : ¬ k < 64 := by omega
    simp [uint128_t.shl, uint128_t.shr, hn, MakeUint128, Uint128Low64, Uint128High64]
  · intro h128
    exact ⟨(uint128_t.shl_spec v k hv h128).2, (uint128_t.shr_spec v k hv h128).2⟩

theorem claim_C4_witness :
    (64 ≤ 65 → 65 < 128 →
      ((MakeUint128 5 3).shl 65).hi = (MakeUint128 5 3).lo * 2 ^ (65 - 64) % 2 ^ 64
      ∧ ((MakeUint128 5 3).shl 65).lo = 0
      ∧ ((MakeUint128 5 3).shr 65).lo = (MakeUint128 5 3).hi / 2 ^ (65 - 64)
      ∧ ((MakeUint128 5 3).shr 65).hi = 0)
    ∧ (65 < 128 →
      ((MakeUint128 5 3).shl 65).val = (MakeUint128 5 3).val * 2 ^ 65 % 2 ^ 128
      ∧ ((MakeUint128 5 3).shr 65).val = (MakeUint128 5 3).val / 2 ^ 65) :=
  claim_C4 (MakeUint128 5 3) 65 (by decide)

/-- C5: on well-formed uint128_t values exactly one of `a < b`, `a == b`,
`a > b` holds, and the comparisons agree with the natural-number order of
`hi * 2^64 + lo`. -/
theorem claim_C5 (a b : uint128_t) (ha : a.Wf) (hb : b.Wf) :
    ((a.lt b = true ∨ a.beq b = true ∨ a.gt b = true)
      ∧ ¬(a.lt b = true ∧ a.beq b = true)
      ∧ ¬(a.lt b = true ∧ a.gt b = true)
      ∧ ¬(a.beq b = true ∧ a.gt b = true))
    ∧ (a.lt b = true ↔ a.val < b.val)
    ∧ (a.beq b = true ↔ a.val = b.val)
    ∧ (a.gt b = true ↔ b.val < a.val) := by
  have h1 := uint128_t.lt_iff ha hb
  have h2 := uint128_t.beq_iff ha hb
  have h3 := uint128_t.gt_iff ha hb
  refine ⟨⟨?_, ?_, ?_, ?_⟩, h1, h2, h3⟩
  · rcases Nat.lt_trichotomy a.val b.val with h | h | h
    · exact Or.inl (h1.mpr h)
    · exact Or.inr (Or.inl (h2.mpr h))
    · exact Or.inr (Or.inr (h3.mpr h))
  · rintro ⟨hx, hy⟩
    have := h1.mp hx
    have := h2.mp hy
    omega
  · rintro ⟨hx, hy⟩
    have := h1.mp hx
    have := h3.mp hy
    omega
  · rintro ⟨hx, hy⟩
    have := h2.mp hx
    have := h3.mp hy
    omega

theorem claim_C5_witness :
    ((uint128_t.lt (MakeUint128 1 5) (MakeUint128 2 3) = true
        ∨ uint128_t.beq (MakeUint128 1 5) (MakeUint128 2 3) = true
        ∨ uint128_t.gt (MakeUint128 1 5) (MakeUint128 2 3) = true)
      ∧ ¬(uint128_t.lt (MakeUint128 1 5) (MakeUint128 2 3) = true
          ∧ uint128_t.beq (MakeUint128 1 5) (MakeUint128 2 3) = true)
      ∧ ¬(uint128_t.lt (MakeUint128 1 5) (MakeUint128 2 3) = true
          ∧ uint128_t.gt (MakeUint128 1 5) (MakeUint128 2 3) = true)
      ∧ ¬(uint128_t.beq (MakeUint128 1 5) (MakeUint128 2 3) = true
          ∧ uint128_t.gt (MakeUint128 1 5) (MakeUint128 2 3) = true))
    ∧ (uint128_t.lt (MakeUint128 1 5) (MakeUint128 2 3) = true
        ↔ (MakeUint128 1 5).val < (MakeUint128 2 3).val)
    ∧ (uint128_t.beq (MakeUint128 1 5) (MakeUint128 2 3) = true
        ↔ (MakeUint128 1 5).val = (MakeUint128 2 3).val)
    ∧ (uint128_t.gt (MakeUint128 1 5) (MakeUint128 2 3) = true
        ↔ (MakeUint128 2 3).val < (MakeUint128 1 5).val) :=
  claim_C5 (MakeUint128 1 5) (MakeUint128 2 3) (by decide) (by decide)

/-- C6: the formatter output is the exact numeral of the value in the
selected base (most significant nonzero chunk unpadded, later chunks
zero-padded to the fixed chunk width); in particular formatting
`MakeUint128 1 0` in decimal yields `"18446744073709551616"`. -/
theorem claim_C6 :
    (∀ (v : uint128_t) (base : FmtBase) (upper : Bool), v.Wf →
      uint128_t.ToFormattedString v base upper = natToBaseStr base.radix upper v.val)
    ∧ uint128_t.ToString (MakeUint128 1 0) = "18446744073709551616" :=
  ⟨fun v base upper hv => uint128_t.ToFormattedString_spec v base upper hv, by decide⟩

theorem claim_C6_witness :
    uint128_t.ToFormattedString (MakeUint128 0 255) FmtBase.hex true
      = natToBaseStr (FmtBase.hex).radix true (MakeUint128 0 255).val :=
  claim_C6.1 (MakeUint128 0 255) FmtBase.hex true (by decide)

/-- C7: construction of a uint128_t from a native signed 64-bit integer
sign-extends negative values to an all-ones high limb and zero-extends
non-negative ones, with the low limb holding the 64-bit two's-complement
pattern; converting to a native 64-bit unsigned integer and back reproduces
the low 64 bits exactly. -/
theorem claim_C7 :
    (∀ v : Int, -(2 ^ 63) ≤ v → v < 2 ^ 63 →
      ((uint128_t.ofInt64 v).hi = if v < 0 then 2 ^ 64 - 1 else 0)
      ∧ (v < 0 → ((uint128_t.ofInt64 v).lo : Int) = v + 2 ^ 64)
      ∧ (0 ≤ v → ((uint128_t.ofInt64 v).lo : Int) = v)
      ∧ (uint128_t.ofInt64 v).Wf)
    ∧ (∀ u : uint128_t, u.Wf →
      (uint128_t.ofNat64 (uint128_t.toNat64 u)).lo = u.lo
      ∧ (uint128_t.ofNat64 (uint128_t.toNat64 u)).hi = 0) := by
  constructor
  · intro v h1 h2
    simp only [uint128_t.ofInt64, uint128_t.Wf, uint128_t.lo_mk, uint128_t.hi_mk]
    split_ifs with h
    · refine ⟨trivial, fun _ => by omega, fun hc => by omega, by omega, by omega⟩
    · refine ⟨trivial, fun hc => by omega, fun _ => by omega, by omega, by omega⟩
  · intro u hu
    exact ⟨rfl, rfl⟩

theorem claim_C7_witness :
    (((uint128_t.ofInt64 (-5)).hi = if (-5 : Int) < 0 then 2 ^ 64 - 1 else 0)
      ∧ ((-5 : Int) < 0 → ((uint128_t.ofInt64 (-5)).lo : Int) = -5 + 2 ^ 64)
      ∧ ((0 : Int) ≤ -5 → ((uint128_t.ofInt64 (-5)).lo : Int) = -5)
      ∧ (uint128_t.ofInt64 (-5)).Wf)
    ∧ ((uint128_t.ofNat64 (uint128_t.toNat64 (MakeUint128 3 4))).lo = (MakeUint128 3 4).lo
      ∧ (uint128_t.ofNat64 (uint128_t.toNat64 (MakeUint128 3 4))).hi = 0) :=
  ⟨claim_C7.1 (-5) (by decide) (by decide), claim_C7.2 (MakeUint128 3 4) (by decide)⟩

/-- C8: for `0 ≤ k < 64`, `(v << k) >> k == v` whenever the top `k` bits of
`v` are zero (`val v < 2^(128-k)`). -/
theorem claim_C8 (v : uint128_t) (k : Nat) (hv : v.Wf) (hk : k < 64)
    (htop : v.val < 2 ^ (128 - k)) :
    (v.shl k).shr k = v := by
  have h1 := uint128_t.shl_spec v k hv (by omega)
  have h2 := uint128_t.shr_spec (v.shl k) k h1.1 (by omega)
  have hpow : 2 ^ (128 - k) * 2 ^ k = 2 ^ 128 := by
    have e : 128 - k + k = 128 := by omega
    rw [← Nat.pow_add, e]
  have hlt : v.val * 2 ^ k < 2 ^ 128 := by
    have hx : v.val * 2 ^ k < 2 ^ (128 - k) * 2 ^ k :=
      (Nat.mul_lt_mul_right (Nat.pos_pow_of_pos _ (by omega))).mpr htop
    omega
  apply uint128_t.val_inj h2.1 hv
  rw [h2.2, h1.2, Nat.mod_eq_of_lt hlt, Nat.mul_div_cancel _ (Nat.pos_pow_of_pos _ (by omega))]

theorem claim_C8_witness : ((MakeUint128 0 12345).shl 20).shr 20 = MakeUint128 0 12345 :=
  claim_C8 (MakeUint128 0 12345) 20 (by decide) (by decide) (by decide)

/-- C9: unary negation returns the exact two's-complement negation
`(2^128 - val v) mod 2^128`, so `v + (-v) == 0`; consequently
`UnsignedAbsoluteValue` computes the mathematical absolute value of every
int128_t, including `Int128Min`, where it yields `2^127`. -/
theorem claim_C9 :
    (∀ v : uint128_t, v.Wf →
      v.neg.val = (2 ^ 128 - v.val) % 2 ^ 128
      ∧ uint128_t.beq (v.add v.neg) (MakeUint128 0 0) = true)
    ∧ (∀ s : int128_t, s.Wf → (UnsignedAbsoluteValue s).val = s.val.natAbs)
    ∧ (UnsignedAbsoluteValue Int128Min).val = 2 ^ 127 := by
  refine ⟨fun v hv => ?_, fun s hs => (UnsignedAbsoluteValue_spec s hs).2, by decide⟩
  have hn := uint128_t.neg_spec v hv
  have hvl := uint128_t.val_lt v hv
  have ha := uint128_t.add_spec v v.neg hv hn.1
  have hw0 : (MakeUint128 0 0).Wf := by norm_num [MakeUint128, uint128_t.Wf]
  have h0 : (MakeUint128 0 0).val = 0 := by norm_num [MakeUint128, uint128_t.val]
  refine ⟨hn.2, ?_⟩
  rw [uint128_t.beq_iff ha.1 hw0, ha.2, hn.2, h0]
  omega

theorem claim_C9_witness :
    ((MakeUint128 7 9).neg.val = (2 ^ 128 - (MakeUint128 7 9).val) % 2 ^ 128
      ∧ uint128_t.beq ((MakeUint128 7 9).add (MakeUint128 7 9).neg) (MakeUint128 0 0) = true)
    ∧ (UnsignedAbsoluteValue (MakeInt128 (-1) (2 ^ 64 - 9))).val
        = (MakeInt128 (-1) (2 ^ 64 - 9)).val.natAbs :=
  ⟨claim_C9.1 (MakeUint128 7 9) (by decide),
   claim_C9.2.1 (MakeInt128 (-1) (2 ^ 64 - 9)) (by decide)⟩

/-- C10: the leading-zero count is total: both `CountLeadingZeros64` and
the software fallback `CountLeadingZeros64Slow` return `64 - bitlen n` for
every 64-bit `n`, in particular `64` on input `0` (the nibble table entry 4
plus the starting offset 60), so a zero limb is defined behavior. -/
theorem claim_C10 :
    (∀ n : Nat, n < 2 ^ 64 →
      CountLeadingZeros64Slow n = 64 - bitlen n ∧ CountLeadingZeros64 n = 64 - bitlen n)
    ∧ CountLeadingZeros64Slow 0 = 64
    ∧ CountLeadingZeros64 0 = 64
    ∧ (∀ n : Nat, 0 < n → bitlen n = Nat.log2 n + 1) :=
  ⟨fun n hn => ⟨CountLeadingZeros64Slow_eq n hn, CountLeadingZeros64_eq n⟩,
   by decide, by decide, fun _ hn => bitlen_eq_log2 hn⟩

theorem claim_C10_witness :
    (CountLeadingZeros64Slow 1 = 64 - bitlen 1 ∧ CountLeadingZeros64 1 = 64 - bitlen 1)
    ∧ (bitlen 12 = Nat.log2 12 + 1) :=
  ⟨claim_C10.1 1 (by decide), claim_C10.2.2.2 12 (by decide)⟩

end absl
